import Mathlib

/-
Verification of the rERP engine and plotting layer of the dbc2021rerps
analysis (sources: dbc_rerp_analysis.py and rerps/plots.py).

The statistical engine (rerps/models.py) is not among the sources; its data
model and operations are modelled from the specification (spec.md sections 3
and 4) and are marked "Modelled from the spec" below.  The plotting layer is
translated from rerps/plots.py directly.

All numeric columns are embedded as exact rationals; identifier columns as
strings.  The standard-deviation step of z-scoring, the one inherently
irrational operation, takes a real square root of a rational variance.
-/

set_option allowUnsafeReducibility true
attribute [semireducible] Rat.add Rat.mul Rat.sub Rat.inv

open Matrix

deriving instance DecidableEq for Except

/-- Modelled from the spec: one observation row of a labeled table (spec section 3,
LabeledTable).  Identifier values are categorical and compared by equality; predictor
and channel values are continuous.  Entries are kept in the order of the three name
lists of the owning table. -/
structure Row where
  ids : List String
  preds : List ℚ
  chans : List ℚ
deriving DecidableEq, Repr, Inhabited

/-- Modelled from the spec: a labeled numeric table (spec section 3; `DataSet` in the
callers): three disjoint ordered name lists classifying the columns, plus the rows. -/
structure DataSet where
  descriptors : List String
  predictors : List String
  electrodes : List String
  rows : List Row
deriving DecidableEq, Repr, Inhabited

/-- Index of a named column inside one of the three name lists. -/
def colIdx (names : List String) (nm : String) : ℕ :=
  names.findIdx (fun d => d = nm)

/-- Value of an identifier column of a row, given the descriptor name list. -/
def idValL (descs : List String) (r : Row) (nm : String) : String :=
  r.ids.getD (colIdx descs nm) ""

/-- Value of a predictor column of a row. -/
def predVal (ds : DataSet) (r : Row) (nm : String) : ℚ :=
  r.preds.getD (colIdx ds.predictors nm) 0

/-- Value of a channel column of a row, given the electrode name list. -/
def chanValL (electrodes : List String) (r : Row) (nm : String) : ℚ :=
  r.chans.getD (colIdx electrodes nm) 0

/-- Value of a channel column of a row of a table. -/
def chanVal (ds : DataSet) (r : Row) (nm : String) : ℚ :=
  chanValL ds.electrodes r nm

/-- Modelled from the spec: the grouping key of a row, the tuple of its identifier
values at the grouping identifiers `G` (spec glossary, Grouping key). -/
def groupKeyL (descs G : List String) (r : Row) : List String :=
  G.map (idValL descs r)

/-- Structural well-formedness (the invariant of spec section 3): every row has
exactly one entry per declared column. -/
def RowsWF (ds : DataSet) : Prop :=
  ∀ r ∈ ds.rows, r.ids.length = ds.descriptors.length ∧
    r.preds.length = ds.predictors.length ∧ r.chans.length = ds.electrodes.length

instance (ds : DataSet) : Decidable (RowsWF ds) := by
  unfold RowsWF; infer_instance

/-- Short-circuiting traversal in the `Except` monad: the first failing element
aborts, mirroring a Python loop that raises. -/
def exMap {α β ε : Type} (f : α → Except ε β) : List α → Except ε (List β)
  | [] => .ok []
  | x :: xs =>
      match f x with
      | .error e => .error e
      | .ok y =>
          match exMap f xs with
          | .error e => .error e
          | .ok ys => .ok (y :: ys)

/-- Distinct values of a list in order of first occurrence, with the values already
seen carried as an accumulator. -/
def firstDedupAux {α : Type} [DecidableEq α] : List α → List α → List α
  | [], _ => []
  | x :: xs, seen =>
      if x ∈ seen then firstDedupAux xs seen else x :: firstDedupAux xs (x :: seen)

/-- Distinct values of a list in order of first occurrence (spec section 4.4: output
rows are ordered by first occurrence of each grouping-key combination). -/
def firstDedup {α : Type} [DecidableEq α] (l : List α) : List α :=
  firstDedupAux l []

/-- Determinant of a rational matrix by Laplace expansion along the first row; a
structurally recursive, executable form of `Matrix.det`. -/
def detL : (n : ℕ) → Matrix (Fin n) (Fin n) ℚ → ℚ
  | 0, _ => 1
  | n + 1, A =>
      ∑ j : Fin (n + 1), (-1 : ℚ) ^ (j : ℕ) * A 0 j * detL n (A.submatrix Fin.succ j.succAbove)

/-- The matrix `A` with column `j` replaced by the vector `b`. -/
def replCol {n : ℕ} (A : Matrix (Fin n) (Fin n) ℚ) (j : Fin n) (b : Fin n → ℚ) :
    Matrix (Fin n) (Fin n) ℚ :=
  fun i k => if k = j then b i else A i k

/-- Executable linear solve by Cramer's rule: the `j`-th unknown is the determinant
with column `j` replaced by the right-hand side, divided by the determinant. -/
def solveLS {n : ℕ} (A : Matrix (Fin n) (Fin n) ℚ) (b : Fin n → ℚ) : Fin n → ℚ :=
  fun j => detL n (replCol A j b) / detL n A

/-- Modelled from the spec: the design-matrix row of one observation: an intercept
entry of one followed by one entry per named predictor, in caller order (spec
section 4.2). -/
def designRow (ds : DataSet) (P : List String) (r : Row) : Fin (P.length + 1) → ℚ :=
  Fin.cases 1 (fun jp => predVal ds r (P.get jp))

/-- Modelled from the spec: the design matrix of a list of observation rows. -/
def designMatrix (ds : DataSet) (P : List String) (rs : List Row) :
    Matrix (Fin rs.length) (Fin (P.length + 1)) ℚ :=
  fun i j => designRow ds P (rs.get i) j

/-- The values of channel `e` over a list of rows, as a vector. -/
def chanVec (ds : DataSet) (e : String) (rs : List Row) : Fin rs.length → ℚ :=
  fun i => chanVal ds (rs.get i) e

/-- The Gram matrix of a design: the coefficient matrix of the normal equations. -/
def gramOf (ds : DataSet) (P : List String) (rs : List Row) :
    Matrix (Fin (P.length + 1)) (Fin (P.length + 1)) ℚ :=
  (designMatrix ds P rs).transpose * designMatrix ds P rs

/-- The right-hand side of the normal equations for channel `e`. -/
def rhsOf (ds : DataSet) (P : List String) (rs : List Row) (e : String) :
    Fin (P.length + 1) → ℚ :=
  (designMatrix ds P rs).transpose *ᵥ chanVec ds e rs

/-- Modelled from the spec: ordinary-least-squares fit of channel `e` on an intercept
plus the predictors `P` over the rows `rs`, by solving the normal equations (spec
section 4.2); fails fast when the design is rank deficient, i.e. when the Gram matrix
of the design is singular.  Returns the coefficient list, intercept first, then one
slope per predictor in caller order. -/
def fitChannel (ds : DataSet) (P : List String) (rs : List Row) (e : String) :
    Except Unit (List ℚ) :=
  if detL (P.length + 1) (gramOf ds P rs) = 0 then .error ()
  else .ok ((List.finRange (P.length + 1)).map (solveLS (gramOf ds P rs) (rhsOf ds P rs e)))

/-- Modelled from the spec: the error reported when a regression design is rank
deficient, carrying the grouping key and channel for diagnosis (spec section 7). -/
structure SingularDesign where
  key : List String
  channel : String
deriving DecidableEq, Repr

/-- Modelled from the spec: one row of a ModelTable (spec section 3): a grouping-key
value with the fitted coefficient list of every channel. -/
structure ModelRow where
  key : List String
  fits : List (String × List ℚ)
deriving DecidableEq, Repr

/-- Modelled from the spec: a ModelTable (spec section 3): the grouping identifiers and
predictor names used for the fit, and one row per grouping-key value. -/
structure ModelSet where
  groups : List String
  mpredictors : List String
  mrows : List ModelRow
deriving DecidableEq, Repr

/-- The rows of a table matching one grouping-key value. -/
def keyRows (ds : DataSet) (G k : List String) : List Row :=
  ds.rows.filter (fun r => decide (groupKeyL ds.descriptors G r = k))

/-- The distinct grouping-key combinations present in a table, in order of first
occurrence. -/
def presentKeys (ds : DataSet) (G : List String) : List (List String) :=
  firstDedup (ds.rows.map (groupKeyL ds.descriptors G))

/-- Modelled from the spec: fit every channel for one grouping-key value, over exactly
the rows matching that value (spec section 4.2). -/
def fitKey (ds : DataSet) (G P : List String) (k : List String) :
    Except SingularDesign ModelRow :=
  (exMap (fun e =>
      match fitChannel ds P (keyRows ds G k) e with
      | .error _ => .error (⟨k, e⟩ : SingularDesign)
      | .ok cs => .ok (e, cs)) ds.electrodes).map
    (fun fits => ⟨k, fits⟩)

/-- Modelled from the spec: `regress(table, grouping_identifiers, predictor_names)`
(spec section 4.2): for every distinct grouping-key combination present, in order of
first occurrence, and independently for every channel, fit an OLS regression of that
channel on an intercept plus the named predictors over exactly the rows matching the
combination; fail fast with `SingularDesign` on a rank-deficient design. -/
def regress (ds : DataSet) (G P : List String) : Except SingularDesign ModelSet :=
  (exMap (fitKey ds G P) (presentKeys ds G)).map (fun mrs => ⟨G, P, mrs⟩)

/-- Modelled from the spec: the error raised when a row's grouping-key value has no
fitted model (spec section 7, MissingModel). -/
structure MissingModel where
  key : List String
deriving DecidableEq, Repr

/-- Look up the fitted model row of a grouping-key value. -/
def findModel (mrs : List ModelRow) (k : List String) : Option ModelRow :=
  mrs.find? (fun mr => decide (mr.key = k))

/-- Modelled from the spec: the fitted value of one row for one coefficient list:
`intercept + Σ (slope_p × predictor_value_p)`, computed from that row's own predictor
values (spec section 4.3). -/
def evalFit (ds : DataSet) (P : List String) (r : Row) (cs : List ℚ) : ℚ :=
  cs.headD 0 + ((cs.tail.zip P).map (fun cp => cp.1 * predVal ds r cp.2)).sum

/-- Modelled from the spec: estimation of one row (spec section 4.3): look up the
fitted model of the row's grouping-key value and replace every channel by its fitted
value; identifiers and predictors are kept unchanged. -/
def estRow (ds : DataSet) (ms : ModelSet) (r : Row) : Except MissingModel Row :=
  match findModel ms.mrows (groupKeyL ds.descriptors ms.groups r) with
  | none => .error ⟨groupKeyL ds.descriptors ms.groups r⟩
  | some mr =>
      (exMap (fun e =>
          match mr.fits.find? (fun f => decide (f.1 = e)) with
          | none => .error (⟨mr.key⟩ : MissingModel)
          | some f => .ok (evalFit ds ms.mpredictors r f.2)) ds.electrodes).map
        (fun cs => ⟨r.ids, r.preds, cs⟩)

/-- Modelled from the spec: `estimate(table, model_table)` (spec section 4.3): for
every row of the table, look up the fitted model of its grouping-key value and, for
each channel, compute `intercept + Σ (slope_p × predictor_value_p)` from that row's
own predictor values; the result is row-aligned with identical identifiers and
predictors, and fails with `MissingModel` when a key has no fitted model. -/
def estimate (ds : DataSet) (ms : ModelSet) : Except MissingModel DataSet :=
  (exMap (estRow ds ms) ds.rows).map
    (fun rws => ⟨ds.descriptors, ds.predictors, ds.electrodes, rws⟩)

/-- Modelled from the spec: the row-misalignment error (spec section 7,
ShapeMismatch). -/
inductive ShapeMismatch
  | mk
deriving DecidableEq, Repr

/-- Modelled from the spec: `residuals(observed_table, estimated_table)` (spec
section 4.3): requires the two tables to be row-aligned (identical identifier tuples
in the same row order) and returns a table of identical shape whose channel values are
`observed − estimated`. -/
def residuals (obs est : DataSet) : Except ShapeMismatch DataSet :=
  if obs.rows.length = est.rows.length ∧
      ∀ pr ∈ obs.rows.zip est.rows, pr.1.ids = pr.2.ids then
    .ok ⟨obs.descriptors, obs.predictors, obs.electrodes,
      (obs.rows.zip est.rows).map
        (fun pr => ⟨pr.1.ids, pr.1.preds,
          List.zipWith (fun a b => a - b) pr.1.chans pr.2.chans⟩)⟩
  else .error .mk

/-- Modelled from the spec: the means table of `summarize(source,
grouping_identifiers)` (spec section 4.4): group the rows by the distinct
grouping-key combinations, in order of first occurrence, and average every channel
column within each group; the result carries the grouping identifiers as its
descriptor columns, so re-applying it to its own output is the two-stage averaging
discipline. -/
def summarizeMeans (ds : DataSet) (G : List String) : DataSet :=
  ⟨G, [], ds.electrodes,
    (presentKeys ds G).map (fun k =>
      ⟨k, [], ds.electrodes.map (fun e =>
        ((keyRows ds G k).map (fun r => chanValL ds.electrodes r e)).sum
          / ((keyRows ds G k).length : ℚ))⟩)⟩

/-- Arithmetic mean of a list of rationals (zero for the empty list). -/
def listMean (xs : List ℚ) : ℚ := xs.sum / (xs.length : ℚ)

/-- Population variance of a list of rationals. -/
def popVar (xs : List ℚ) : ℚ :=
  ((xs.map (fun v => (v - listMean xs) ^ 2)).sum) / (xs.length : ℚ)

/-- Modelled from the spec: the error for z-scoring a constant column (spec
section 7, ZeroVariance). -/
inductive ZeroVariance
  | mk
deriving DecidableEq, Repr

/-- Modelled from the spec: `zscore` on one numeric column (spec section 4.1):
replace every value `v` by `(v − mean)/stddev` computed over all rows, with the
population standard deviation; a zero-variance column fails rather than divide by
zero.  The standard deviation is the real square root of the rational population
variance. -/
noncomputable def zscoreColumn (xs : List ℚ) : Except ZeroVariance (List ℝ) :=
  if popVar xs = 0 then .error .mk
  else .ok (xs.map (fun v : ℚ =>
    ((v : ℝ) - (listMean xs : ℝ)) / Real.sqrt ((popVar xs : ℚ) : ℝ)))

/-- Modelled from the spec: a store of row arrays, addressed by index.  A table holds
a reference into the store, so aliasing of the underlying mutable storage is
observable (spec section 3, Lifecycle). -/
abbrev Store := List (List Row)

/-- Modelled from the spec: a table as a reference into the store, with its three
column-name lists. -/
structure RefTable where
  descriptors : List String
  predictors : List String
  electrodes : List String
  arr : ℕ
deriving DecidableEq, Repr

/-- The rows currently held by a table's storage. -/
def readRows (σ : Store) (t : RefTable) : List Row := σ.getD t.arr []

/-- An in-place write of the whole underlying array of a table; every in-place edit
of a table's values is such a write. -/
def writeRows (σ : Store) (t : RefTable) (new : List Row) : Store := σ.set t.arr new

/-- Modelled from the spec: `copy()` (spec section 4.1): allocate fresh storage
holding the same values and return a table referring to it (new storage, same
name mappings). -/
def copyTable (σ : Store) (t : RefTable) : Store × RefTable :=
  (σ ++ [readRows σ t], ⟨t.descriptors, t.predictors, t.electrodes, σ.length⟩)

/-- Setting a whole predictor column to a constant, in place, as the caller does to
build a counterfactual design (dbc_rerp_analysis.py lines 120-121 and 136-137). -/
def setPredColumn (σ : Store) (t : RefTable) (p : String) (v : ℚ) : Store :=
  writeRows σ t ((readRows σ t).map
    (fun r => ⟨r.ids, r.preds.set (colIdx t.predictors p) v, r.chans⟩))

/-- A summary as consumed by the plotting layer (`DataSummary` in rerps/plots.py):
row-aligned means and standard-error tables over descriptor columns and electrode
columns.  `Row.chans` holds the summarized cells. -/
structure DataSummary where
  descriptors : List String
  electrodes : List String
  means : List Row
  sems : List Row
deriving DecidableEq, Repr

/-- Lexicographic comparison of character lists by code point, the order in which
`numpy.unique` sorts label strings. -/
def charListLe : List Char → List Char → Bool
  | [], _ => true
  | _ :: _, [] => false
  | a :: as, b :: bs =>
      if a.toNat < b.toNat then true
      else if b.toNat < a.toNat then false
      else charListLe as bs

/-- Code-point lexicographic order on strings. -/
def strLe (a b : String) : Bool := charListLe a.data b.data

/-- Insertion into a sorted list of strings, keeping it sorted. -/
def insertSorted (x : String) : List String → List String
  | [] => [x]
  | y :: ys => if strLe x y then x :: y :: ys else y :: insertSorted x ys

/-- The behavior of `numpy.unique` on a column of labels: the distinct values in
ascending order. -/
def npUnique (xs : List String) : List String :=
  (firstDedup xs).foldr insertSorted []

/-- Set equality of two label lists, as Python's `set(a) == set(b)`. -/
def listSetEq (a b : List String) : Prop :=
  (∀ x ∈ a, x ∈ b) ∧ (∀ x ∈ b, x ∈ a)

instance (a b : List String) : Decidable (listSetEq a b) := by
  unfold listSetEq; infer_instance

/-- The `TypeError` Python raises when `plot_voltages` receives `group_order=None`
and passes it to `set` (rerps/plots.py line 91). -/
inductive PyTypeError
  | mk
deriving DecidableEq, Repr

/-- One plotted series: the legend label, the x-sample labels, the mean trajectory,
and the lower and upper edges of the shaded band, one entry per summary row drawn. -/
structure Series where
  label : String
  xs : List String
  ys : List ℚ
  lows : List ℚ
  highs : List ℚ
deriving DecidableEq, Repr, Inhabited

/-- The groupby column of a summary's means table. -/
def groupColumn (dsm : DataSummary) (groupby : String) : List String :=
  dsm.means.map (fun r => idValL dsm.descriptors r groupby)

/-- The SEM cells of a group: the `sems` rows matching the group value, at the
plotted electrode (rerps/plots.py lines 105-108). -/
def semColumnV (dsm : DataSummary) (groupby g y : String) : List ℚ :=
  (dsm.sems.filter (fun r => decide (idValL dsm.descriptors r groupby = g))).map
    (fun r => chanValL dsm.electrodes r y)

/-- One group's series in `plot_voltages` (rerps/plots.py lines 93-111): x and mean
values from the `means` rows matching the group, SEM values from the `sems` rows
matching it, and a shaded band from `mean − 2·SEM` to `mean + 2·SEM`. -/
def voltageSeries (dsm : DataSummary) (x y groupby g : String) : Series :=
  let mrows := dsm.means.filter (fun r => decide (idValL dsm.descriptors r groupby = g))
  let yv := mrows.map (fun r => chanValL dsm.electrodes r y)
  let sv := semColumnV dsm groupby g y
  ⟨g, mrows.map (fun r => idValL dsm.descriptors r x), yv,
    List.zipWith (fun a b => a - 2 * b) yv sv,
    List.zipWith (fun a b => a + 2 * b) yv sv⟩

/-- The group drawing order of `plot_voltages` (rerps/plots.py lines 90-92): the
`numpy.unique` order of the groupby column, unless the caller-given `group_order`
names exactly the same set, in which case it is used as given; a missing
`group_order` is passed to `set` and raises. -/
def resolveGroups (present : List String) (group_order : Option (List String)) :
    Except PyTypeError (List String) :=
  match group_order with
  | none => .error .mk
  | some go => .ok (if listSetEq go present then go else present)

/-- `plot_voltages` (rerps/plots.py lines 43-136), reduced to the data it draws: one
series per group, in resolved group order. -/
def plot_voltages (dsm : DataSummary) (x y groupby : String)
    (group_order : Option (List String)) : Except PyTypeError (List Series) :=
  (resolveGroups (npUnique (groupColumn dsm groupby)) group_order).map
    (fun gs => gs.map (voltageSeries dsm x y groupby))

/-- A coefficients summary as consumed by `plot_coefficients` (`ModelSummary` in the
sources): descriptor columns plus one summarized column per (electrode, predictor)
coefficient; `coefs` is the column directory keyed by electrode and predictor name. -/
structure ModelSummary where
  descriptors : List String
  predictors : List String
  coefs : List ((String × String) × ℕ)
  means : List Row
  sems : List Row
deriving DecidableEq, Repr

/-- Column index of the (electrode, predictor) coefficient. -/
def coefIdx (msm : ModelSummary) (y p : String) : ℕ :=
  (((msm.coefs.find? (fun c => decide (c.1 = (y, p)))).map (fun c => c.2)).getD 0)

/-- One summarized coefficient column of a row list. -/
def coefCol (rows : List Row) (i : ℕ) : List ℚ :=
  rows.map (fun r => r.chans.getD i 0)

/-- The plotted series of `plot_coefficients` (rerps/plots.py lines 242-260): one per
predictor, in predictor order.  With `anchor` on, every series after the first
(the intercept) has the intercept trajectory added to it and is relabeled
`"<intercept> + <predictor>"`; the first series is drawn unmodified.  The shaded band
runs from the (possibly anchored) mean `− 2·SEM` to it `+ 2·SEM`, with the SEM cells
taken from the summary's `sems` table at the predictor's own column. -/
def plot_coefficients (msm : ModelSummary) (x y : String) (anchor : Bool) : List Series :=
  (List.range msm.predictors.length).map (fun i =>
    let p := msm.predictors.getD i ""
    let p0 := msm.predictors.getD 0 ""
    let yv0 := coefCol msm.means (coefIdx msm y p)
    let anchored := anchor && decide (0 < i)
    let yv := if anchored
      then List.zipWith (fun a b => a + b) yv0 (coefCol msm.means (coefIdx msm y p0))
      else yv0
    let sv := coefCol msm.sems (coefIdx msm y p)
    ⟨if anchored then p0 ++ " + " ++ p else p,
      msm.means.map (fun r => idValL msm.descriptors r x), yv,
      List.zipWith (fun a b => a - 2 * b) yv sv,
      List.zipWith (fun a b => a + 2 * b) yv sv⟩)

/-- A Python runtime error of the grid plotting code: `IndexError` from `grid[0]` on
an empty grid or from indexing the axes array past its width, `KeyError` from
removing `''` from a set not containing it, `IndexError`/`TypeError` from indexing a
squeezed (one-row or one-column) axes array with `[0, 0]`, or a `TypeError`
propagated from an inner `plot_voltages` call. -/
inductive PlotError
  | indexError
  | keyError
  | axesIndexError
  | typeError
deriving DecidableEq, Repr

/-- One subplot action of a grid plot: hiding the axes of an empty-string cell, or
drawing one electrode's subplot at a grid position. -/
inductive CellAct
  | hide (r c : ℕ)
  | draw (r c : ℕ) (electrode : String)
deriving DecidableEq, Repr

/-- The cells of a grid in row-major visit order, each with its position. -/
def gridCells (grid : List (List String)) : List (ℕ × ℕ × String) :=
  (List.range grid.length).flatMap (fun r =>
    (List.range (grid.getD r []).length).map (fun c => (r, c, (grid.getD r []).getD c "")))

/-- The grid traversal shared verbatim by `plot_voltages_grid` and
`plot_coefficients_grid` (rerps/plots.py lines 170-196 and 316-342): build a
`len(grid) × len(grid[0])` axes array (`grid[0]` raises on an empty grid), remove
`''` from the set of cell names (`KeyError` when absent), index `axes[0, 0]` (which
raises when either dimension is below two, having been squeezed away), then visit the
cells row-major, hiding every `''` cell and drawing one subplot per named cell with
the given per-electrode call; a cell beyond the axes width raises when visited. -/
def gridRun (grid : List (List String)) (cell : String → Except PlotError Unit) :
    Except PlotError (List CellAct) :=
  match grid with
  | [] => .error .indexError
  | g0 :: _ =>
      if "" ∈ grid.flatten then
        if grid.length < 2 ∨ g0.length < 2 then .error .axesIndexError
        else
          exMap (fun rce =>
            if g0.length ≤ rce.2.1 then .error .indexError
            else if rce.2.2 = "" then .ok (CellAct.hide rce.1 rce.2.1)
            else (cell rce.2.2).map (fun _ => CellAct.draw rce.1 rce.2.1 rce.2.2))
            (gridCells grid)
      else .error .keyError

/-- `plot_voltages_grid` (rerps/plots.py lines 138-196), reduced to its grid/axes
behavior: which cells are hidden, which electrodes are drawn, and which Python errors
are raised; the inner per-electrode call is `plot_voltages`, whose `TypeError` on a
missing `group_order` propagates out of the loop. -/
def plot_voltages_grid (dsm : DataSummary) (x : String) (grid : List (List String))
    (groupby : String) (group_order : Option (List String)) :
    Except PlotError (List CellAct) :=
  gridRun grid (fun y =>
    match plot_voltages dsm x y groupby group_order with
    | .error _ => .error .typeError
    | .ok _ => .ok ())

/-- `plot_coefficients_grid` (rerps/plots.py lines 287-342), reduced to its grid/axes
behavior; the inner per-electrode call is `plot_coefficients`, which is total. -/
def plot_coefficients_grid (msm : ModelSummary) (x : String) (grid : List (List String))
    (anchor : Bool) : Except PlotError (List CellAct) :=
  gridRun grid (fun y =>
    (Except.ok (plot_coefficients msm x y anchor)).map (fun _ => ()))

/-- A two-observation table of one subject: predictor values 0 and 1, channel values
0 and 1, an exactly fittable line. -/
def dsW : DataSet :=
  ⟨["Subject"], ["p"], ["Cz"], [⟨["s1"], [0], [0]⟩, ⟨["s1"], [1], [1]⟩]⟩

/-- The model table `regress` produces on `dsW`: intercept 0, slope 1. -/
def msW : ModelSet :=
  ⟨["Subject"], ["p"], [⟨["s1"], [("Cz", [0, 1])]⟩]⟩

/-- The estimate of `dsW` under `msW`: the fit is exact. -/
def etW : DataSet :=
  ⟨["Subject"], ["p"], ["Cz"], [⟨["s1"], [0], [0]⟩, ⟨["s1"], [1], [1]⟩]⟩

/-- The residual table of `dsW` against `etW`: all zeros. -/
def rtW : DataSet :=
  ⟨["Subject"], ["p"], ["Cz"], [⟨["s1"], [0], [0]⟩, ⟨["s1"], [1], [0]⟩]⟩

/-- A table with a single observation but two predictors: three parameters, one row,
a necessarily singular design. -/
def dsSing : DataSet :=
  ⟨["Subject"], ["a", "b"], ["Cz"], [⟨["s1"], [1, 2], [5]⟩]⟩

/-- Two subjects sharing one condition, with unequal trial counts (three and one) and
unequal values: subject means 0 and 4, pooled mean 1. -/
def dsUneq : DataSet :=
  ⟨["Condition", "Subject"], [], ["Cz"],
    [⟨["c", "s1"], [], [0]⟩, ⟨["c", "s1"], [], [0]⟩, ⟨["c", "s1"], [], [0]⟩,
     ⟨["c", "s2"], [], [4]⟩]⟩

/-- Two subjects sharing one condition, with unequal trial counts (three and one) but
constant values: every mean is 4 however the rows are grouped. -/
def dsConst : DataSet :=
  ⟨["Condition", "Subject"], [], ["Cz"],
    [⟨["c", "s1"], [], [4]⟩, ⟨["c", "s1"], [], [4]⟩, ⟨["c", "s1"], [], [4]⟩,
     ⟨["c", "s2"], [], [4]⟩]⟩

/-- A one-table store. -/
def storeW : Store := [[⟨["s1"], [1], [2]⟩]]

/-- A table referring to the one array of `storeW`. -/
def refW : RefTable := ⟨["Subject"], ["p"], ["Cz"], 0⟩

/-- A two-group, one-timestamp summary with distinct mean and SEM cells. -/
def dsmW : DataSummary :=
  ⟨["Condition", "Timestamp"], ["Cz"],
    [⟨["a", "0"], [], [1]⟩, ⟨["b", "0"], [], [3]⟩],
    [⟨["a", "0"], [], [2]⟩, ⟨["b", "0"], [], [5]⟩]⟩

/-- A two-predictor coefficient summary over two timestamps. -/
def msmW : ModelSummary :=
  ⟨["Timestamp"], ["intercept", "plaus"],
    [(("Cz", "intercept"), 0), (("Cz", "plaus"), 1)],
    [⟨["0"], [], [10, 1]⟩, ⟨["100"], [], [20, 2]⟩],
    [⟨["0"], [], [1, 1]⟩, ⟨["100"], [], [1, 1]⟩]⟩

/-- An electrode grid with no empty cell. -/
def gridNoEmpty : List (List String) := [["Cz", "Pz"], ["F3", "F4"]]

/-- A single-row electrode grid containing an empty cell. -/
def gridOneRow : List (List String) := [["", "Pz", "Cz"]]

/-- A well-formed two-by-two electrode grid with empty and named cells. -/
def gridOK : List (List String) := [["", "Pz"], ["Cz", ""]]

/-- The Laplace-expansion determinant agrees with the Mathlib determinant. -/
theorem detL_eq_det : ∀ (n : ℕ) (A : Matrix (Fin n) (Fin n) ℚ), detL n A = A.det
  | 0, A => by simp [detL, Matrix.det_fin_zero]
  | n + 1, A => by
      rw [Matrix.det_succ_row_zero, detL]
      exact Finset.sum_congr rfl fun j _ => by rw [detL_eq_det n]

/-- Column replacement agrees with `Matrix.updateColumn`. -/
theorem replCol_eq_updateColumn {n : ℕ} (A : Matrix (Fin n) (Fin n) ℚ) (j : Fin n)
    (b : Fin n → ℚ) : replCol A j b = A.updateColumn j b := by
  funext i k
  simp [replCol, Matrix.updateColumn_apply]

/-- Cramer's rule: on a nonsingular matrix, `solveLS` solves the linear system. -/
theorem solveLS_spec {n : ℕ} (A : Matrix (Fin n) (Fin n) ℚ) (b : Fin n → ℚ)
    (h : detL n A ≠ 0) : A *ᵥ solveLS A b = b := by
  have hd : A.det ≠ 0 := by rw [← detL_eq_det]; exact h
  have hs : solveLS A b = (A.det)⁻¹ • (Matrix.cramer A b) := by
    funext j
    simp [solveLS, detL_eq_det, Matrix.cramer_apply, replCol_eq_updateColumn,
      div_eq_inv_mul, smul_eq_mul]
  rw [hs, Matrix.mulVec_smul, Matrix.mulVec_cramer, smul_smul, inv_mul_cancel₀ hd, one_smul]

/-- A design with fewer observations than parameters has a singular Gram matrix. -/
theorem detL_gram_eq_zero_of_lt {n p : ℕ} (h : n < p) (X : Matrix (Fin n) (Fin p) ℚ) :
    detL p (X.transpose * X) = 0 := by
  rw [detL_eq_det]
  by_contra hne
  have hu : IsUnit (X.transpose * X) := by
    rw [Matrix.isUnit_iff_isUnit_det]
    exact isUnit_iff_ne_zero.mpr hne
  have hr : (X.transpose * X).rank = p := by
    simpa using Matrix.rank_of_isUnit _ hu
  have h1 : (X.transpose * X).rank = X.rank := Matrix.rank_transpose_mul_self X
  have h2 : X.rank ≤ n := by simpa using Matrix.rank_le_card_height X
  omega

/-- A successful `exMap` is an elementwise-successful traversal. -/
theorem exMap_ok_forall₂ {α β ε : Type} (f : α → Except ε β) :
    ∀ (l : List α) (out : List β), exMap f l = .ok out →
      List.Forall₂ (fun x y => f x = .ok y) l out := by
  intro l
  induction l with
  | nil =>
      intro out h
      simp only [exMap, Except.ok.injEq] at h
      subst h
      exact List.Forall₂.nil
  | cons x xs ih =>
      intro out h
      unfold exMap at h
      cases hf : f x with
      | error e => rw [hf] at h; cases h
      | ok y =>
          rw [hf] at h
          cases hrest : exMap f xs with
          | error e => rw [hrest] at h; cases h
          | ok ys =>
              rw [hrest] at h
              simp only [Except.ok.injEq] at h
              subst h
              exact List.Forall₂.cons hf (ih ys hrest)

/-- An elementwise-successful traversal makes `exMap` succeed. -/
theorem exMap_ok_of_forall₂ {α β ε : Type} {f : α → Except ε β} {l : List α}
    {out : List β} (h : List.Forall₂ (fun x y => f x = .ok y) l out) :
    exMap f l = .ok out := by
  induction h with
  | nil => rfl
  | cons hxy _ ih => unfold exMap; rw [hxy, ih]

/-- A failing element makes the whole `exMap` fail. -/
theorem exMap_error_of_mem {α β ε : Type} {f : α → Except ε β} {x : α} {e0 : ε} :
    ∀ {l : List α}, x ∈ l → f x = .error e0 → ∃ e, exMap f l = .error e := by
  intro l
  induction l with
  | nil => intro h; cases h
  | cons a as ih =>
      intro hmem hfx
      cases hfa : f a with
      | error e => exact ⟨e, by unfold exMap; rw [hfa]⟩
      | ok y =>
          have hx : x ∈ as := by
            rcases List.mem_cons.mp hmem with h | h
            · subst h; rw [hfx] at hfa; cases hfa
            · exact h
          obtain ⟨e, he⟩ := ih hx hfx
          exact ⟨e, by unfold exMap; rw [hfa, he]⟩

/-- Membership in the deduplication accumulator pass. -/
theorem mem_firstDedupAux {α : Type} [DecidableEq α] :
    ∀ (l seen : List α) (x : α), x ∈ firstDedupAux l seen ↔ (x ∈ l ∧ x ∉ seen) := by
  intro l
  induction l with
  | nil => intro seen x; simp [firstDedupAux]
  | cons a as ih =>
      intro seen x
      unfold firstDedupAux
      by_cases ha : a ∈ seen
      · rw [if_pos ha, ih seen x]
        constructor
        · rintro ⟨h1, h2⟩
          exact ⟨List.mem_cons_of_mem a h1, h2⟩
        · rintro ⟨h1, h2⟩
          rcases List.mem_cons.mp h1 with h | h
          · subst h; exact absurd ha h2
          · exact ⟨h, h2⟩
      · rw [if_neg ha, List.mem_cons, ih (a :: seen) x]
        constructor
        · rintro (h | ⟨h1, h2⟩)
          · subst h; exact ⟨List.mem_cons_self x as, ha⟩
          · exact ⟨List.mem_cons_of_mem a h1, fun hx => h2 (List.mem_cons_of_mem a hx)⟩
        · rintro ⟨h1, hn⟩
          rcases List.mem_cons.mp h1 with h | h
          · exact Or.inl h
          · by_cases hxa : x = a
            · exact Or.inl hxa
            · refine Or.inr ⟨h, ?_⟩
              intro hmem
              rcases List.mem_cons.mp hmem with h' | h'
              · exact hxa h'
              · exact hn h'

/-- `firstDedup` keeps exactly the values of the list. -/
theorem mem_firstDedup {α : Type} [DecidableEq α] (l : List α) (x : α) :
    x ∈ firstDedup l ↔ x ∈ l := by
  simp [firstDedup, mem_firstDedupAux]

/-- The deduplication accumulator pass has no duplicates. -/
theorem nodup_firstDedupAux {α : Type} [DecidableEq α] :
    ∀ (l seen : List α), (firstDedupAux l seen).Nodup := by
  intro l
  induction l with
  | nil => intro seen; simp [firstDedupAux]
  | cons a as ih =>
      intro seen
      unfold firstDedupAux
      by_cases ha : a ∈ seen
      · rw [if_pos ha]; exact ih seen
      · rw [if_neg ha]
        refine List.nodup_cons.mpr ⟨fun hmem => ?_, ih (a :: seen)⟩
        exact ((mem_firstDedupAux as (a :: seen) a).mp hmem).2 (List.mem_cons_self a seen)

/-- `firstDedup` has no duplicates. -/
theorem nodup_firstDedup {α : Type} [DecidableEq α] (l : List α) :
    (firstDedup l).Nodup :=
  nodup_firstDedupAux l []

/-- The first list element whose key matches, through an elementwise relation: the
looked-up value satisfies the relation at the key. -/
theorem find?_of_forall₂ {β γ : Type} [DecidableEq γ] (key : β → γ) (q : γ → β → Prop) :
    ∀ (l : List γ) (out : List β),
      List.Forall₂ (fun x y => key y = x ∧ q x y) l out →
      ∀ c ∈ l, ∃ y, out.find? (fun y => decide (key y = c)) = some y ∧ key y = c ∧ q c y := by
  intro l
  induction l with
  | nil => intro out h c hc; cases hc
  | cons a as ih =>
      intro out h c hc
      cases h with
      | cons hhead htail =>
          rename_i y ys
          by_cases hyc : key y = c
          · refine ⟨y, ?_, hyc, ?_⟩
            · exact List.find?_cons_of_pos _ (by simp [hyc])
            · have hac : a = c := by rw [← hhead.1, hyc]
              subst hac
              exact hhead.2
          · have hc' : c ∈ as := by
              rcases List.mem_cons.mp hc with h | h
              · subst h; exact absurd hhead.1 hyc
              · exact h
            obtain ⟨y', h1, h2, h3⟩ := ih ys htail c hc'
            exact ⟨y', by rw [List.find?_cons_of_neg _ (by simp [hyc])]; exact h1, h2, h3⟩

/-- Filtered sums transport along an elementwise relation that preserves the filter
and, on kept elements, the summand. -/
theorem sum_filter_of_forall₂ {α β : Type} {R : α → β → Prop} (p : α → Bool) (q : β → Bool)
    (v : β → ℚ) (w : α → ℚ)
    (hpq : ∀ x y, R x y → q y = p x) (hvw : ∀ x y, R x y → p x = true → v y = w x) :
    ∀ {l₁ : List α} {l₂ : List β}, List.Forall₂ R l₁ l₂ →
      ((l₂.filter q).map v).sum = ((l₁.filter p).map w).sum := by
  intro l₁ l₂ h
  induction h with
  | nil => rfl
  | cons hxy htail ih =>
      rename_i x y l₁' l₂'
      rw [List.filter_cons, List.filter_cons, hpq x y hxy]
      by_cases hp : p x = true
      · rw [if_pos hp, if_pos hp]
        simp only [List.map_cons, List.sum_cons, ih, hvw x y hxy hp]
      · rw [if_neg hp, if_neg hp]
        exact ih

/-- A mapped list sum as a sum over positions. -/
theorem list_map_sum_eq_fin_sum {α : Type} (f : α → ℚ) :
    ∀ l : List α, (l.map f).sum = ∑ i : Fin l.length, f (l.get i) := by
  intro l
  induction l with
  | nil => simp
  | cons x xs ih =>
      have h1 : ((x :: xs).map f).sum = f x + (xs.map f).sum := by simp
      rw [h1, ih]
      have h2 : ∑ i : Fin (xs.length + 1), f ((x :: xs).get i)
          = f ((x :: xs).get ⟨0, Nat.succ_pos _⟩)
            + ∑ i : Fin xs.length, f ((x :: xs).get i.succ) :=
        Fin.sum_univ_succ _
      simp only [List.length_cons]
      rw [h2]
      congr 1

/-- The slope part of `evalFit`, as a position-indexed sum. -/
theorem zip_sum_getD (q : String → ℚ) :
    ∀ (cs : List ℚ) (P : List String), cs.length = P.length →
      ((cs.zip P).map (fun cp => cp.1 * q cp.2)).sum
        = ∑ j : Fin P.length, cs.getD (j : ℕ) 0 * q (P.get j) := by
  intro cs
  induction cs with
  | nil =>
      intro P h
      cases P with
      | nil => simp
      | cons p ps => cases h
  | cons c cs ihc =>
      intro P h
      cases P with
      | nil => cases h
      | cons p ps =>
          simp only [List.zip_cons_cons, List.map_cons, List.sum_cons, List.length_cons]
          rw [Fin.sum_univ_succ]
          rw [ihc ps (by simpa using h)]
          simp

/-- `evalFit` on a position-indexed coefficient vector is the design-row dot
product. -/
theorem evalFit_finRange (ds : DataSet) (P : List String) (r : Row)
    (β : Fin (P.length + 1) → ℚ) :
    evalFit ds P r ((List.finRange (P.length + 1)).map β)
      = ∑ j : Fin (P.length + 1), designRow ds P r j * β j := by
  unfold evalFit
  have hfr : List.finRange (P.length + 1)
      = (0 : Fin (P.length + 1)) :: (List.finRange P.length).map Fin.succ :=
    List.finRange_succ_eq_map P.length
  rw [hfr]
  simp only [List.map_cons, List.headD_cons, List.tail_cons, List.map_map]
  rw [zip_sum_getD (predVal ds r) _ P (by simp)]
  rw [Fin.sum_univ_succ]
  have h0 : designRow ds P r 0 = 1 := by simp [designRow]
  have hs : ∀ jp : Fin P.length,
      designRow ds P r jp.succ = predVal ds r (P.get jp) := by
    intro jp; simp [designRow]
  rw [h0, one_mul]
  congr 1
  refine Finset.sum_congr rfl fun jp _ => ?_
  have hget : ((List.finRange P.length).map (β ∘ Fin.succ)).getD (jp : ℕ) 0 = β jp.succ := by
    rw [List.getD_eq_getElem _ _ (by simp)]
    simp
  rw [hget, hs jp, mul_comm]

/-- OLS residuals sum to zero over the fitted rows: with an all-ones intercept
column, any solution of the normal equations has mean-zero residuals. -/
theorem residual_sum_zero_of_normal {n p : ℕ} (X : Matrix (Fin n) (Fin (p + 1)) ℚ)
    (y : Fin n → ℚ) (β : Fin (p + 1) → ℚ)
    (hone : ∀ i, X i ⟨0, Nat.succ_pos p⟩ = 1)
    (hnorm : (X.transpose * X) *ᵥ β = X.transpose *ᵥ y) :
    ∑ i : Fin n, (y i - (X *ᵥ β) i) = 0 := by
  have h : X.transpose *ᵥ (y - X *ᵥ β) = 0 := by
    rw [Matrix.mulVec_sub, Matrix.mulVec_mulVec, hnorm, sub_self]
  have h0 := congrFun h ⟨0, Nat.succ_pos p⟩
  simp only [Matrix.mulVec, Matrix.dotProduct, Matrix.transpose_apply, Pi.zero_apply,
    Pi.sub_apply] at h0
  calc ∑ i : Fin n, (y i - (X *ᵥ β) i)
      = ∑ i : Fin n, X i ⟨0, Nat.succ_pos p⟩ * (y i - (X *ᵥ β) i) := by
        refine Finset.sum_congr rfl fun i _ => ?_
        rw [hone i, one_mul]
    _ = 0 := h0

/-- Unfolding a successful `Except.map`. -/
theorem except_map_ok {α β ε : Type} {f : α → β} {x : Except ε α} {v : β}
    (h : Except.map f x = .ok v) : ∃ w, x = .ok w ∧ v = f w := by
  cases x with
  | error e => cases h
  | ok w =>
      refine ⟨w, rfl, ?_⟩
      simpa [Except.map] using h.symm

/-- Unfolding a successful `fitChannel`: the design is nonsingular and the
coefficients solve the normal equations by Cramer's rule. -/
theorem fitChannel_ok {ds : DataSet} {P : List String} {rs : List Row} {e : String}
    {cs : List ℚ} (h : fitChannel ds P rs e = .ok cs) :
    detL (P.length + 1) (gramOf ds P rs) ≠ 0 ∧
    cs = (List.finRange (P.length + 1)).map (solveLS (gramOf ds P rs) (rhsOf ds P rs e)) := by
  unfold fitChannel at h
  by_cases hd : detL (P.length + 1) (gramOf ds P rs) = 0
  · rw [if_pos hd] at h; cases h
  · rw [if_neg hd] at h
    simp only [Except.ok.injEq] at h
    exact ⟨hd, h.symm⟩

/-- Unfolding a successful `fitKey`: the key is recorded and there is one successful
per-channel fit entry per electrode, in electrode order, labeled with its channel. -/
theorem fitKey_ok {ds : DataSet} {G P k : List String} {mr : ModelRow}
    (h : fitKey ds G P k = .ok mr) :
    mr.key = k ∧
    List.Forall₂ (fun e f => f.1 = e ∧ fitChannel ds P (keyRows ds G k) e = .ok f.2)
      ds.electrodes mr.fits := by
  unfold fitKey at h
  obtain ⟨fits, hex, hmr⟩ := except_map_ok h
  subst hmr
  refine ⟨rfl, ?_⟩
  have h2 := exMap_ok_forall₂ _ _ _ hex
  refine h2.imp ?_
  intro e f hef
  cases hfc : fitChannel ds P (keyRows ds G k) e with
  | error u => rw [hfc] at hef; cases hef
  | ok cs =>
      rw [hfc] at hef
      simp only [Except.ok.injEq] at hef
      subst hef
      exact ⟨rfl, rfl⟩

/-- Unfolding a successful `regress`: the grouping identifiers and predictors are
recorded as given and there is one successfully fitted model row per present
grouping-key value, in order. -/
theorem regress_ok {ds : DataSet} {G P : List String} {ms : ModelSet}
    (h : regress ds G P = .ok ms) :
    ms.groups = G ∧ ms.mpredictors = P ∧
    List.Forall₂ (fun k mr => mr.key = k ∧ fitKey ds G P k = .ok mr)
      (presentKeys ds G) ms.mrows := by
  unfold regress at h
  obtain ⟨mrs, hex, hms⟩ := except_map_ok h
  subst hms
  refine ⟨rfl, rfl, ?_⟩
  have h2 := exMap_ok_forall₂ _ _ _ hex
  refine h2.imp ?_
  intro kk mr hk
  exact ⟨(fitKey_ok hk).1, hk⟩

/-- After a successful `regress`, every present grouping-key value's model row is
found by `findModel`. -/
theorem findModel_of_regress {ds : DataSet} {G P : List String} {ms : ModelSet}
    {k : List String} (h : regress ds G P = .ok ms) (hk : k ∈ presentKeys ds G) :
    ∃ mr, findModel ms.mrows k = some mr ∧ mr.key = k ∧ fitKey ds G P k = .ok mr := by
  obtain ⟨-, -, h3⟩ := regress_ok h
  obtain ⟨mr, hfind, hkey, hq⟩ :=
    find?_of_forall₂ ModelRow.key (fun kk mr => fitKey ds G P kk = .ok mr)
      _ _ h3 k hk
  exact ⟨mr, hfind, hkey, hq⟩

/-- After a successful `fitKey`, every channel's fit entry is found by name in the
model row and carries the coefficients of `fitChannel`. -/
theorem findFit_of_fitKey {ds : DataSet} {G P k : List String} {mr : ModelRow}
    {e : String} (h : fitKey ds G P k = .ok mr) (he : e ∈ ds.electrodes) :
    ∃ cs, mr.fits.find? (fun f => decide (f.1 = e)) = some (e, cs) ∧
      fitChannel ds P (keyRows ds G k) e = .ok cs := by
  obtain ⟨-, h2⟩ := fitKey_ok h
  obtain ⟨f, hfind, hkey, hq⟩ :=
    find?_of_forall₂ Prod.fst
      (fun e f => fitChannel ds P (keyRows ds G k) e = .ok (Prod.snd f)) _ _ h2 e he
  obtain ⟨f1, f2⟩ := f
  exact ⟨f2, by rw [hfind]; cases hkey; rfl, hq⟩

/-- Unfolding a successful `estRow`: identifiers and predictors are kept and each
channel receives its fitted value, in channel order. -/
theorem estRow_ok {ds : DataSet} {ms : ModelSet} {r z : Row}
    (h : estRow ds ms r = .ok z) :
    ∃ mr, findModel ms.mrows (groupKeyL ds.descriptors ms.groups r) = some mr ∧
      z.ids = r.ids ∧ z.preds = r.preds ∧
      List.Forall₂ (fun e c => ∃ f, mr.fits.find? (fun f => decide (f.1 = e)) = some f ∧
        c = evalFit ds ms.mpredictors r (Prod.snd f)) ds.electrodes z.chans := by
  unfold estRow at h
  cases hfm : findModel ms.mrows (groupKeyL ds.descriptors ms.groups r) with
  | none => rw [hfm] at h; cases h
  | some mr =>
      rw [hfm] at h
      obtain ⟨cs, hex, hz⟩ := except_map_ok h
      subst hz
      refine ⟨mr, rfl, rfl, rfl, ?_⟩
      have h2 := exMap_ok_forall₂ _ _ _ hex
      refine h2.imp ?_
      intro e c hec
      cases hff : mr.fits.find? (fun f => decide (f.1 = e)) with
      | none => rw [hff] at hec; cases hec
      | some f =>
          rw [hff] at hec
          simp only [Except.ok.injEq] at hec
          exact ⟨f, rfl, hec.symm⟩

/-- Unfolding a successful `estimate`: the name mappings are kept and every row is
estimated in order. -/
theorem estimate_ok {ds : DataSet} {ms : ModelSet} {et : DataSet}
    (h : estimate ds ms = .ok et) :
    et.descriptors = ds.descriptors ∧ et.predictors = ds.predictors ∧
    et.electrodes = ds.electrodes ∧
    List.Forall₂ (fun r z => estRow ds ms r = .ok z) ds.rows et.rows := by
  unfold estimate at h
  obtain ⟨rws, hex, het⟩ := except_map_ok h
  subst het
  exact ⟨rfl, rfl, rfl, exMap_ok_forall₂ _ _ _ hex⟩

/-- Unfolding a successful `residuals`: the name mappings are kept, the rows are the
pairwise differences, and the inputs were row-aligned. -/
theorem residuals_ok {obs est rt : DataSet} (h : residuals obs est = .ok rt) :
    rt.descriptors = obs.descriptors ∧ rt.predictors = obs.predictors ∧
    rt.electrodes = obs.electrodes ∧
    rt.rows = (obs.rows.zip est.rows).map
      (fun pr => ⟨pr.1.ids, pr.1.preds,
        List.zipWith (fun a b => a - b) pr.1.chans pr.2.chans⟩) ∧
    obs.rows.length = est.rows.length := by
  unfold residuals at h
  by_cases hc : obs.rows.length = est.rows.length ∧
      ∀ pr ∈ obs.rows.zip est.rows, pr.1.ids = pr.2.ids
  · rw [if_pos hc] at h
    simp only [Except.ok.injEq] at h
    subst h
    exact ⟨rfl, rfl, rfl, rfl, hc.1⟩
  · rw [if_neg hc] at h; cases h

/-- Zipping an elementwise-related list and mapping the pairs, as a relation on the
original left list. -/
theorem forall₂_zip_map {α β γ : Type} {S : α → β → Prop} (fn : α × β → γ) :
    ∀ {l₁ : List α} {l₂ : List β}, List.Forall₂ S l₁ l₂ →
      List.Forall₂ (fun x y => ∃ z, S x z ∧ y = fn (x, z)) l₁ ((l₁.zip l₂).map fn) := by
  intro l₁ l₂ h
  induction h with
  | nil => exact .nil
  | cons hxz htail ih => exact .cons ⟨_, hxz, rfl⟩ ih

/-- An elementwise relation can carry left membership. -/
theorem forall₂_mem_left {α β : Type} {S : α → β → Prop} :
    ∀ {l₁ : List α} {l₂ : List β}, List.Forall₂ S l₁ l₂ →
      List.Forall₂ (fun x y => x ∈ l₁ ∧ S x y) l₁ l₂ := by
  intro l₁ l₂ h
  induction h with
  | nil => exact .nil
  | cons hxy htail ih =>
      exact .cons ⟨List.mem_cons_self _ _, hxy⟩
        (ih.imp fun a b hab => ⟨List.mem_cons_of_mem _ hab.1, hab.2⟩)

/-- The grouping key reads only the identifier part of a row. -/
theorem groupKeyL_congr_ids {descs Gs : List String} {x y : Row} (h : y.ids = x.ids) :
    groupKeyL descs Gs y = groupKeyL descs Gs x := by
  simp [groupKeyL, idValL, h]

/-- Cellwise reading of a pointwise difference of channel lists. -/
theorem zipWith_sub_getD {a b : List ℚ} {i : ℕ} (ha : i < a.length) (hb : i < b.length) :
    (List.zipWith (fun u v => u - v) a b).getD i 0 = a.getD i 0 - b.getD i 0 := by
  rw [List.getD_eq_getElem _ _ (by rw [List.length_zipWith]; omega),
      List.getD_eq_getElem _ _ ha, List.getD_eq_getElem _ _ hb, List.getElem_zipWith]

/-- One row of a design-matrix product. -/
theorem designMatrix_mulVec (ds : DataSet) (P : List String) (rs : List Row)
    (β : Fin (P.length + 1) → ℚ) (i : Fin rs.length) :
    (designMatrix ds P rs *ᵥ β) i = ∑ j, designRow ds P (rs.get i) j * β j := by
  simp [designMatrix, Matrix.mulVec, Matrix.dotProduct]

/-- The estimated channel value of one row is the `evalFit` of the coefficients of
the model row found for that row's grouping key. -/
theorem estRow_chan_value {ds : DataSet} {ms : ModelSet} {x z : Row} {mr : ModelRow}
    {e : String} {cs : List ℚ}
    (hz : estRow ds ms x = .ok z)
    (hfm : findModel ms.mrows (groupKeyL ds.descriptors ms.groups x) = some mr)
    (hffind : mr.fits.find? (fun f => decide (f.1 = e)) = some (e, cs))
    (he : e ∈ ds.electrodes) :
    z.chans.getD (colIdx ds.electrodes e) 0 = evalFit ds ms.mpredictors x cs ∧
    z.ids = x.ids ∧ z.chans.length = ds.electrodes.length := by
  obtain ⟨mr', hfm', hids, hpreds, hchans⟩ := estRow_ok hz
  have hmr : mr' = mr := by
    rw [hfm] at hfm'
    exact (Option.some.inj hfm').symm
  subst hmr
  have hlen : ds.electrodes.length = z.chans.length := hchans.length_eq
  have hidx : colIdx ds.electrodes e < ds.electrodes.length :=
    List.findIdx_lt_length_of_exists ⟨e, he, by simp⟩
  have helem : ds.electrodes.get ⟨colIdx ds.electrodes e, hidx⟩ = e := by
    have hp := @List.findIdx_getElem _ (fun d => decide (d = e)) ds.electrodes hidx
    simpa using hp
  obtain ⟨hl, hget⟩ := List.forall₂_iff_get.mp hchans
  have hrel := hget (colIdx ds.electrodes e) hidx (by omega)
  rw [helem] at hrel
  obtain ⟨f, hfind2, hvalf⟩ := hrel
  rw [hffind] at hfind2
  injection hfind2 with hf
  subst hf
  refine ⟨?_, hids, hlen.symm⟩
  rw [List.getD_eq_getElem _ _ (by omega)]
  exact hvalf

/-- Every grouping-key combination present in a table, every channel: the residuals
of the model fitted on those same rows sum to zero over the combination's rows
(claim C1 core, stated over the residual table). -/
theorem residuals_group_sum_zero (ds : DataSet) (G P : List String) (ms : ModelSet)
    (et rt : DataSet) (hwf : RowsWF ds)
    (hreg : regress ds G P = .ok ms)
    (hest : estimate ds ms = .ok et)
    (hres : residuals ds et = .ok rt)
    (e : String) (he : e ∈ ds.electrodes)
    (k : List String) (hk : k ∈ ds.rows.map (groupKeyL ds.descriptors G)) :
    ((rt.rows.filter (fun r => decide (groupKeyL rt.descriptors G r = k))).map
      (fun r => chanValL rt.electrodes r e)).sum = 0 := by
  obtain ⟨hrd, hrp, hre, hrows, hlen⟩ := residuals_ok hres
  obtain ⟨hed, hep, hee, hest2⟩ := estimate_ok hest
  obtain ⟨hgG, hgP, -⟩ := regress_ok hreg
  have hk' : k ∈ presentKeys ds G := by
    unfold presentKeys
    exact (mem_firstDedup _ _).mpr hk
  obtain ⟨mr, hfm, hmrk, hfk⟩ := findModel_of_regress hreg hk'
  obtain ⟨cs, hffind, hfc⟩ := findFit_of_fitKey hfk he
  obtain ⟨hdet, hcs⟩ := fitChannel_ok hfc
  have hnorm : ((designMatrix ds P (keyRows ds G k)).transpose
        * designMatrix ds P (keyRows ds G k))
        *ᵥ solveLS (gramOf ds P (keyRows ds G k)) (rhsOf ds P (keyRows ds G k) e)
      = (designMatrix ds P (keyRows ds G k)).transpose *ᵥ chanVec ds e (keyRows ds G k) :=
    solveLS_spec (gramOf ds P (keyRows ds G k)) (rhsOf ds P (keyRows ds G k) e) hdet
  have hone : ∀ i, designMatrix ds P (keyRows ds G k) i ⟨0, Nat.succ_pos P.length⟩ = 1 := by
    intro i
    simp [designMatrix, designRow]
  have hzero : ∑ i : Fin (keyRows ds G k).length,
      (chanVec ds e (keyRows ds G k) i
        - (designMatrix ds P (keyRows ds G k)
            *ᵥ solveLS (gramOf ds P (keyRows ds G k)) (rhsOf ds P (keyRows ds G k) e)) i) = 0 :=
    residual_sum_zero_of_normal _ _ _ hone hnorm
  have hlist : (((keyRows ds G k).map
      (fun x => chanVal ds x e - evalFit ds ms.mpredictors x cs)).sum) = 0 := by
    rw [list_map_sum_eq_fin_sum]
    rw [← hzero]
    refine Finset.sum_congr rfl fun i _ => ?_
    congr 1
    rw [hgP, hcs, evalFit_finRange, designMatrix_mulVec]
  have hR : List.Forall₂
      (fun x y => x ∈ ds.rows ∧ ∃ z, estRow ds ms x = .ok z ∧
        y = (⟨x.ids, x.preds, List.zipWith (fun a b => a - b) x.chans z.chans⟩ : Row))
      ds.rows rt.rows := by
    rw [hrows]
    exact forall₂_mem_left (forall₂_zip_map
      (fun pr => (⟨pr.1.ids, pr.1.preds,
        List.zipWith (fun a b => a - b) pr.1.chans pr.2.chans⟩ : Row)) hest2)
  rw [hrd, hre]
  have htrans := sum_filter_of_forall₂
    (fun x => decide (groupKeyL ds.descriptors G x = k))
    (fun y => decide (groupKeyL ds.descriptors G y = k))
    (fun y => chanValL ds.electrodes y e)
    (fun x => chanVal ds x e - evalFit ds ms.mpredictors x cs)
    (fun x y hxy => by
      obtain ⟨hmem, z, hz, hy⟩ := hxy
      subst hy
      have hgk : groupKeyL ds.descriptors G
          (⟨x.ids, x.preds, List.zipWith (fun a b => a - b) x.chans z.chans⟩ : Row)
          = groupKeyL ds.descriptors G x := groupKeyL_congr_ids rfl
      simp only [hgk])
    (fun x y hxy hpx => by
      obtain ⟨hmem, z, hz, hy⟩ := hxy
      subst hy
      have hkey : groupKeyL ds.descriptors G x = k := of_decide_eq_true hpx
      have hfmx : findModel ms.mrows (groupKeyL ds.descriptors ms.groups x) = some mr := by
        rw [hgG, hkey]
        exact hfm
      obtain ⟨hval, hids, hlenz⟩ := estRow_chan_value hz hfmx hffind he
      have hxlen : x.chans.length = ds.electrodes.length := (hwf x hmem).2.2
      have hidx : colIdx ds.electrodes e < ds.electrodes.length :=
        List.findIdx_lt_length_of_exists ⟨e, he, by simp⟩
      show (List.zipWith (fun a b => a - b) x.chans z.chans).getD (colIdx ds.electrodes e) 0
          = chanVal ds x e - evalFit ds ms.mpredictors x cs
      rw [zipWith_sub_getD (by omega) (by omega), hval]
      rfl)
    hR
  rw [htrans]
  exact hlist

/-- C1, claim `residuals(table, estimate(table, regress(table, G, P)))` has
per-channel, per-grouping-key residual sums of zero: witnessed on the concrete
two-row table `dsW`, whose pipeline values are checked by evaluation. -/
theorem residuals_group_sum_zero_witness :
    ((rtW.rows.filter
        (fun r => decide (groupKeyL rtW.descriptors ["Subject"] r = ["s1"]))).map
      (fun r => chanValL rtW.electrodes r "Cz")).sum = 0 :=
  residuals_group_sum_zero dsW ["Subject"] ["p"] msW etW rtW
    (by decide) (by decide) (by decide) (by decide) "Cz" (by decide) ["s1"] (by decide)

/-- The channel lookup of one estimated row: every channel of the output is the
fitted value of the coefficients found by channel name in the row's model. -/
theorem estRow_channel_lookup {ds : DataSet} {ms : ModelSet} {x z : Row}
    (hz : estRow ds ms x = .ok z) :
    ∃ mr, findModel ms.mrows (groupKeyL ds.descriptors ms.groups x) = some mr ∧
      z.ids = x.ids ∧ z.preds = x.preds ∧
      ∀ e ∈ ds.electrodes,
        ∃ cs, mr.fits.find? (fun f => decide (f.1 = e)) = some (e, cs) ∧
          chanValL ds.electrodes z e = evalFit ds ms.mpredictors x cs := by
  obtain ⟨mr, hfm, hids, hpreds, hchans⟩ := estRow_ok hz
  refine ⟨mr, hfm, hids, hpreds, ?_⟩
  intro e he
  have hidx : colIdx ds.electrodes e < ds.electrodes.length :=
    List.findIdx_lt_length_of_exists ⟨e, he, by simp⟩
  have hlen := hchans.length_eq
  have helem : ds.electrodes.get ⟨colIdx ds.electrodes e, hidx⟩ = e := by
    have hp := @List.findIdx_getElem _ (fun d => decide (d = e)) ds.electrodes hidx
    simpa using hp
  obtain ⟨hl, hget⟩ := List.forall₂_iff_get.mp hchans
  have hrel := hget (colIdx ds.electrodes e) hidx (by omega)
  rw [helem] at hrel
  obtain ⟨f, hfind2, hvalf⟩ := hrel
  obtain ⟨f1, f2⟩ := f
  have hfe : f1 = e := by
    have hp := List.find?_some hfind2
    simpa using hp
  subst hfe
  refine ⟨f2, hfind2, ?_⟩
  unfold chanValL
  rw [List.getD_eq_getElem _ _ (by omega)]
  exact hvalf

/-- C2: `estimate` produces a row-aligned table with identical identifiers and
predictors, whose every channel cell is `intercept + Σ (slope_p × predictor_value_p)`
(`evalFit`) computed from that row's own predictor values, with the fitted model
looked up by the row's grouping-key value. -/
theorem estimate_rowwise_formula (ds : DataSet) (ms : ModelSet) (et : DataSet)
    (hest : estimate ds ms = .ok et) :
    et.descriptors = ds.descriptors ∧ et.predictors = ds.predictors ∧
    et.electrodes = ds.electrodes ∧ et.rows.length = ds.rows.length ∧
    ∀ (i : ℕ) (hi : i < ds.rows.length) (hi' : i < et.rows.length),
      (et.rows.get ⟨i, hi'⟩).ids = (ds.rows.get ⟨i, hi⟩).ids ∧
      (et.rows.get ⟨i, hi'⟩).preds = (ds.rows.get ⟨i, hi⟩).preds ∧
      ∃ mr, findModel ms.mrows
          (groupKeyL ds.descriptors ms.groups (ds.rows.get ⟨i, hi⟩)) = some mr ∧
        ∀ e ∈ ds.electrodes,
          ∃ cs, mr.fits.find? (fun f => decide (f.1 = e)) = some (e, cs) ∧
            chanValL ds.electrodes (et.rows.get ⟨i, hi'⟩) e
              = evalFit ds ms.mpredictors (ds.rows.get ⟨i, hi⟩) cs := by
  obtain ⟨hed, hep, hee, h2⟩ := estimate_ok hest
  have hlen := h2.length_eq
  refine ⟨hed, hep, hee, hlen.symm, ?_⟩
  intro i hi hi'
  obtain ⟨hl, hget⟩ := List.forall₂_iff_get.mp h2
  have hz := hget i hi hi'
  obtain ⟨mr, hfm, hids, hpreds, hchan⟩ := estRow_channel_lookup hz
  exact ⟨hids, hpreds, mr, hfm, hchan⟩

/-- C2, witnessed on the concrete table `dsW` and model `msW` at row one and
channel Cz. -/
theorem estimate_rowwise_formula_witness :
    ∃ mr, findModel msW.mrows
        (groupKeyL dsW.descriptors msW.groups (dsW.rows.get ⟨1, by decide⟩)) = some mr ∧
      ∀ e ∈ dsW.electrodes,
        ∃ cs, mr.fits.find? (fun f => decide (f.1 = e)) = some (e, cs) ∧
          chanValL dsW.electrodes (etW.rows.get ⟨1, by decide⟩) e
            = evalFit dsW msW.mpredictors (dsW.rows.get ⟨1, by decide⟩) cs := by
  obtain ⟨-, -, -, -, h⟩ := estimate_rowwise_formula dsW msW etW (by decide)
  exact (h 1 (by decide) (by decide)).2.2

/-- C4: `regress` on a table with a grouping-key value whose matching rows are fewer
than the number of parameters (intercept plus predictors), or whose design is
otherwise rank-deficient, fails with a `SingularDesign` error rather than returning a
fit; the failing key's per-key fit reports that grouping key together with a channel
name. -/
theorem regress_singular_design (ds : DataSet) (G P : List String) (k : List String)
    (hk : k ∈ ds.rows.map (groupKeyL ds.descriptors G))
    (hne : ds.electrodes ≠ [])
    (hsing : (keyRows ds G k).length < P.length + 1 ∨
      detL (P.length + 1) (gramOf ds P (keyRows ds G k)) = 0) :
    (∃ sd, regress ds G P = .error sd) ∧
    ∃ e ∈ ds.electrodes, fitKey ds G P k = .error ⟨k, e⟩ := by
  have hdet : detL (P.length + 1) (gramOf ds P (keyRows ds G k)) = 0 := by
    rcases hsing with h | h
    · exact detL_gram_eq_zero_of_lt h (designMatrix ds P (keyRows ds G k))
    · exact h
  have hfc : ∀ e, fitChannel ds P (keyRows ds G k) e = .error () := by
    intro e
    unfold fitChannel
    rw [if_pos hdet]
  obtain ⟨e0, es, hes⟩ : ∃ e0 es, ds.electrodes = e0 :: es := by
    cases h : ds.electrodes with
    | nil => exact absurd h hne
    | cons a l => exact ⟨a, l, rfl⟩
  have hfk : fitKey ds G P k = .error ⟨k, e0⟩ := by
    unfold fitKey
    rw [hes]
    simp only [exMap, hfc, Except.map]
  refine ⟨?_, e0, by rw [hes]; exact List.mem_cons_self _ _, hfk⟩
  have hk' : k ∈ presentKeys ds G := by
    unfold presentKeys
    exact (mem_firstDedup _ _).mpr hk
  obtain ⟨er, her⟩ := exMap_error_of_mem hk' hfk
  refine ⟨er, ?_⟩
  unfold regress
  rw [her]
  rfl

/-- C4, witnessed on the concrete one-row, two-predictor table `dsSing`. -/
theorem regress_singular_design_witness :
    (∃ sd, regress dsSing ["Subject"] ["a", "b"] = .error sd) ∧
    ∃ e ∈ dsSing.electrodes,
      fitKey dsSing ["Subject"] ["a", "b"] ["s1"] = .error ⟨["s1"], e⟩ :=
  regress_singular_design dsSing ["Subject"] ["a", "b"] ["s1"]
    (by decide) (by decide) (Or.inl (by decide))

/-- C3 counterexample: the constant-valued table `dsConst` has fine groups of the
unequal sizes three and one inside its single coarse condition group, yet two-stage
summarization (by condition and subject, then by condition) equals one-stage
summarization of all raw rows by condition: unequal fine-group sizes do not make the
two results differ, and their coincidence does not require equal sizes. -/
theorem twostage_counterexample :
    (keyRows dsConst ["Condition", "Subject"] ["c", "s1"]).length = 3 ∧
    (keyRows dsConst ["Condition", "Subject"] ["c", "s2"]).length = 1 ∧
    (keyRows dsConst ["Condition"] ["c"]).length = 4 ∧
    summarizeMeans (summarizeMeans dsConst ["Condition", "Subject"]) ["Condition"]
      = summarizeMeans dsConst ["Condition"] := by decide

/-- C3 amended: on the minimal two-subject fixture `dsUneq` with unequal trial
counts three and one (subject means 0 and 4), two-stage summarization gives the
mean-of-means 2 at channel Cz while one-stage pooling of all raw rows gives 1: an
unequal-size fixture on which the two disciplines genuinely differ, by exactly 1. -/
theorem twostage_differs_on_unequal_fixture :
    (keyRows dsUneq ["Condition", "Subject"] ["c", "s1"]).length = 3 ∧
    (keyRows dsUneq ["Condition", "Subject"] ["c", "s2"]).length = 1 ∧
    chanValL (summarizeMeans (summarizeMeans dsUneq ["Condition", "Subject"])
        ["Condition"]).electrodes
      ((summarizeMeans (summarizeMeans dsUneq ["Condition", "Subject"])
        ["Condition"]).rows.headD default) "Cz" = 2 ∧
    chanValL (summarizeMeans dsUneq ["Condition"]).electrodes
      ((summarizeMeans dsUneq ["Condition"]).rows.headD default) "Cz" = 1 := by decide

/-- A quotient by a number inside a positive window stays inside a target window. -/
theorem div_in_window {d t ε l u s : ℝ} (hl : l < s) (hu : s < u) (h0 : 0 < l)
    (hε : 0 < ε) (ht : 0 ≤ t - ε) (hb1 : d < (t + ε) * l) (hb2 : (t - ε) * u < d) :
    |d / s - t| < ε := by
  have hs : 0 < s := lt_trans h0 hl
  rw [abs_lt]
  constructor
  · have h1 : (t - ε) * s ≤ (t - ε) * u := by
      exact mul_le_mul_of_nonneg_left hu.le ht
    have h2 : (t - ε) * s < d := lt_of_le_of_lt h1 hb2
    have h3 : t - ε < d / s := (lt_div_iff₀ hs).mpr h2
    linarith
  · have htp : 0 < t + ε := by linarith
    have h1 : (t + ε) * l < (t + ε) * s := by
      exact mul_lt_mul_of_pos_left hl htp
    have h2 : d < (t + ε) * s := lt_trans hb1 h1
    have h3 : d / s < t + ε := (div_lt_iff₀ hs).mpr h2
    linarith

/-- The standard deviation of the column [1,2,3,4] lies strictly between 1.118 and
1.1181. -/
theorem sqrt_five_fourths_window :
    (1118 : ℝ)/1000 < Real.sqrt (((5 : ℚ)/4 : ℚ) : ℝ) ∧
    Real.sqrt (((5 : ℚ)/4 : ℚ) : ℝ) < (11181 : ℝ)/10000 := by
  have hc : (((5 : ℚ)/4 : ℚ) : ℝ) = (5 : ℝ)/4 := by norm_num
  rw [hc]
  constructor
  · rw [Real.lt_sqrt (by norm_num)]
    norm_num
  · rw [Real.sqrt_lt' (by norm_num)]
    norm_num

/-- C5 counterexample: z-scoring the column [1,2,3,4] does not produce the literal
value list [-1.341, -0.447, 0.447, 1.341]: the exact first value is −3/√5 =
−1.34164…, which is not −1.341. -/
theorem zscore_values_counterexample :
    zscoreColumn [1, 2, 3, 4]
      ≠ .ok [-(1341 : ℝ)/1000, -(447 : ℝ)/1000, (447 : ℝ)/1000, (1341 : ℝ)/1000] := by
  intro h
  unfold zscoreColumn at h
  rw [if_neg (by decide : ¬ popVar [1, 2, 3, 4] = 0)] at h
  rw [show popVar [1, 2, 3, 4] = (5 : ℚ)/4 from by decide,
      show listMean [1, 2, 3, 4] = (5 : ℚ)/2 from by decide] at h
  have hl := Except.ok.inj h
  have h0 := congrArg (fun l : List ℝ => l.getD 0 0) hl
  simp only [List.map_cons, List.getD_cons_zero] at h0
  obtain ⟨hw1, hw2⟩ := sqrt_five_fourths_window
  have hspos : (0 : ℝ) < Real.sqrt (((5 : ℚ)/4 : ℚ) : ℝ) := by linarith
  have hcast : ((1 : ℚ) : ℝ) - (((5 : ℚ)/2 : ℚ) : ℝ) = -(3/2 : ℝ) := by norm_num
  rw [hcast] at h0
  have hlin := (div_eq_iff (ne_of_gt hspos)).mp h0
  linarith

/-- C5 amended: z-scoring uses the population standard deviation and, on the column
[1,2,3,4], yields values summing to zero (mean zero) with each value within 0.001 of
the quoted −1.341, −0.447, 0.447, 1.341 (exactly ∓3/√5 and ∓1/√5); and z-scoring any
constant (zero-variance) column fails with `ZeroVariance` rather than dividing by
zero. -/
theorem zscore_population_convention (xs : List ℝ)
    (h : zscoreColumn [1, 2, 3, 4] = .ok xs) :
    xs.sum = 0 ∧
    |xs.getD 0 0 + 1341/1000| < 1/1000 ∧ |xs.getD 1 0 + 447/1000| < 1/1000 ∧
    |xs.getD 2 0 - 447/1000| < 1/1000 ∧ |xs.getD 3 0 - 1341/1000| < 1/1000 ∧
    ∀ (n : ℕ) (c : ℚ), zscoreColumn (List.replicate n c) = .error .mk := by
  unfold zscoreColumn at h
  rw [if_neg (by decide : ¬ popVar [1, 2, 3, 4] = 0)] at h
  rw [show popVar [1, 2, 3, 4] = (5 : ℚ)/4 from by decide,
      show listMean [1, 2, 3, 4] = (5 : ℚ)/2 from by decide] at h
  simp only [Except.ok.injEq] at h
  subst h
  obtain ⟨hw1, hw2⟩ := sqrt_five_fourths_window
  have hspos : (0 : ℝ) < Real.sqrt (((5 : ℚ)/4 : ℚ) : ℝ) := by linarith
  have hsne : Real.sqrt (((5 : ℚ)/4 : ℚ) : ℝ) ≠ 0 := ne_of_gt hspos
  refine ⟨?_, ?_, ?_, ?_, ?_, ?_⟩
  · simp only [List.map_cons, List.map_nil, List.sum_cons, List.sum_nil]
    push_cast
    ring
  · have hcast : ((1 : ℚ) : ℝ) - (((5 : ℚ)/2 : ℚ) : ℝ) = -(3/2 : ℝ) := by norm_num
    simp only [List.map_cons, List.map_nil, List.getD_cons_zero]
    rw [hcast, neg_div]
    rw [show ∀ x : ℝ, -x + 1341/1000 = -(x - 1341/1000) from fun x => by ring, abs_neg]
    exact div_in_window hw1 hw2 (by norm_num) (by norm_num) (by norm_num)
      (by norm_num) (by norm_num)
  · have hcast : ((2 : ℚ) : ℝ) - (((5 : ℚ)/2 : ℚ) : ℝ) = -(1/2 : ℝ) := by norm_num
    simp only [List.map_cons, List.map_nil, List.getD_cons_zero, List.getD_cons_succ]
    rw [hcast, neg_div]
    rw [show ∀ x : ℝ, -x + 447/1000 = -(x - 447/1000) from fun x => by ring, abs_neg]
    exact div_in_window hw1 hw2 (by norm_num) (by norm_num) (by norm_num)
      (by norm_num) (by norm_num)
  · have hcast : ((3 : ℚ) : ℝ) - (((5 : ℚ)/2 : ℚ) : ℝ) = (1/2 : ℝ) := by norm_num
    simp only [List.map_cons, List.map_nil, List.getD_cons_zero, List.getD_cons_succ]
    rw [hcast]
    exact div_in_window hw1 hw2 (by norm_num) (by norm_num) (by norm_num)
      (by norm_num) (by norm_num)
  · have hcast : ((4 : ℚ) : ℝ) - (((5 : ℚ)/2 : ℚ) : ℝ) = (3/2 : ℝ) := by norm_num
    simp only [List.map_cons, List.map_nil, List.getD_cons_zero, List.getD_cons_succ]
    rw [hcast]
    exact div_in_window hw1 hw2 (by norm_num) (by norm_num) (by norm_num)
      (by norm_num) (by norm_num)
  · intro n c
    have hv : popVar (List.replicate n c) = 0 := by
      cases n with
      | zero => simp [popVar, listMean]
      | succ m =>
          have hmean : listMean (List.replicate (m + 1) c) = c := by
            unfold listMean
            rw [List.sum_replicate, List.length_replicate, nsmul_eq_mul,
              mul_comm ((m + 1 : ℕ) : ℚ) c, mul_div_assoc,
              div_self (Nat.cast_ne_zero.mpr (Nat.succ_ne_zero m)), mul_one]
          unfold popVar
          rw [hmean]
          simp [List.map_replicate, List.sum_replicate]
    unfold zscoreColumn
    rw [if_pos hv]

/-- C5 amended witness: the z-scored column of [1,2,3,4] exists, sums to zero, and
every constant column fails with `ZeroVariance`. -/
theorem zscore_population_convention_witness :
    ∃ xs : List ℝ, zscoreColumn [1, 2, 3, 4] = .ok xs ∧ xs.sum = 0 ∧
      zscoreColumn (List.replicate 2 (7 : ℚ)) = .error .mk := by
  have hok : zscoreColumn [1, 2, 3, 4]
      = .ok (([1, 2, 3, 4] : List ℚ).map (fun v : ℚ =>
          ((v : ℝ) - (listMean [1, 2, 3, 4] : ℝ))
            / Real.sqrt ((popVar [1, 2, 3, 4] : ℚ) : ℝ))) := by
    unfold zscoreColumn
    rw [if_neg (by decide : ¬ popVar [1, 2, 3, 4] = 0)]
  have h := zscore_population_convention _ hok
  exact ⟨_, hok, h.1, h.2.2.2.2.2 2 7⟩

/-- C6: `copy` returns a table on fresh storage with the same values: the copy reads
back the original's rows, refers to a different array, and every subsequent in-place
write to the copy's storage — in particular zeroing a predictor column to build a
counterfactual design — leaves every cell of the original table unchanged. -/
theorem copy_no_shared_storage (σ : Store) (t : RefTable) (h : t.arr < σ.length) :
    readRows (copyTable σ t).1 (copyTable σ t).2 = readRows σ t ∧
    (copyTable σ t).2.arr ≠ t.arr ∧
    (∀ new, readRows (writeRows (copyTable σ t).1 (copyTable σ t).2 new) t
      = readRows σ t) ∧
    (∀ p v, readRows (setPredColumn (copyTable σ t).1 (copyTable σ t).2 p v) t
      = readRows σ t) := by
  have hcopyread : readRows (copyTable σ t).1 (copyTable σ t).2 = readRows σ t := by
    unfold copyTable readRows
    simp
  have hwrite : ∀ new, readRows (writeRows (copyTable σ t).1 (copyTable σ t).2 new) t
      = readRows σ t := by
    intro new
    unfold copyTable writeRows readRows
    simp only
    rw [List.getD_eq_getElem _ _ (by simp [List.length_set]; omega)]
    rw [List.getElem_set_ne (by omega)]
    rw [List.getElem_append_left h]
    rw [List.getD_eq_getElem _ _ h]
  refine ⟨hcopyread, by simp [copyTable]; omega, hwrite, ?_⟩
  intro p v
  unfold setPredColumn
  exact hwrite _

/-- C6, witnessed on the one-table store `storeW`: zeroing the copy's predictor
column leaves the original unchanged. -/
theorem copy_no_shared_storage_witness :
    readRows (copyTable storeW refW).1 (copyTable storeW refW).2 = readRows storeW refW ∧
    (copyTable storeW refW).2.arr ≠ refW.arr ∧
    (∀ new, readRows (writeRows (copyTable storeW refW).1 (copyTable storeW refW).2 new) refW
      = readRows storeW refW) ∧
    (∀ p v, readRows (setPredColumn (copyTable storeW refW).1 (copyTable storeW refW).2 p v) refW
      = readRows storeW refW) :=
  copy_no_shared_storage storeW refW (by decide)

/-- The `i`-th series drawn by `plot_coefficients`, written out. -/
theorem plot_coefficients_getD (msm : ModelSummary) (x y : String) (anchor : Bool)
    (i : ℕ) (hi : i < msm.predictors.length) :
    (plot_coefficients msm x y anchor).getD i default
      = ⟨(if anchor && decide (0 < i)
            then msm.predictors.getD 0 "" ++ " + " ++ msm.predictors.getD i ""
            else msm.predictors.getD i ""),
          msm.means.map (fun r => idValL msm.descriptors r x),
          (if anchor && decide (0 < i)
            then List.zipWith (fun a b => a + b)
              (coefCol msm.means (coefIdx msm y (msm.predictors.getD i "")))
              (coefCol msm.means (coefIdx msm y (msm.predictors.getD 0 "")))
            else coefCol msm.means (coefIdx msm y (msm.predictors.getD i ""))),
          List.zipWith (fun a b => a - 2 * b)
            (if anchor && decide (0 < i)
              then List.zipWith (fun a b => a + b)
                (coefCol msm.means (coefIdx msm y (msm.predictors.getD i "")))
                (coefCol msm.means (coefIdx msm y (msm.predictors.getD 0 "")))
              else coefCol msm.means (coefIdx msm y (msm.predictors.getD i "")))
            (coefCol msm.sems (coefIdx msm y (msm.predictors.getD i ""))),
          List.zipWith (fun a b => a + 2 * b)
            (if anchor && decide (0 < i)
              then List.zipWith (fun a b => a + b)
                (coefCol msm.means (coefIdx msm y (msm.predictors.getD i "")))
                (coefCol msm.means (coefIdx msm y (msm.predictors.getD 0 "")))
              else coefCol msm.means (coefIdx msm y (msm.predictors.getD i "")))
            (coefCol msm.sems (coefIdx msm y (msm.predictors.getD i "")))⟩ := by
  unfold plot_coefficients
  rw [List.getD_eq_getElem _ _ (by simp [hi]), List.getElem_map, List.getElem_range]

/-- C7: every shaded band drawn by `plot_voltages` and `plot_coefficients` spans
exactly `mean − 2·SEM` to `mean + 2·SEM` pointwise, where the SEM values are the
corresponding cells of the summary's `sems` table (the visualization half-width is
fixed at two standard errors of the mean). -/
theorem shaded_band_two_sems (dsm : DataSummary) (x y groupby : String)
    (go : Option (List String)) (out : List Series)
    (hout : plot_voltages dsm x y groupby go = .ok out)
    (msm : ModelSummary) (xc yc : String) (anchor : Bool) :
    (∀ s ∈ out,
      s.lows = List.zipWith (fun m sem => m - 2 * sem) s.ys
        (semColumnV dsm groupby s.label y) ∧
      s.highs = List.zipWith (fun m sem => m + 2 * sem) s.ys
        (semColumnV dsm groupby s.label y)) ∧
    (∀ i, i < msm.predictors.length →
      ((plot_coefficients msm xc yc anchor).getD i default).lows
        = List.zipWith (fun m sem => m - 2 * sem)
            ((plot_coefficients msm xc yc anchor).getD i default).ys
            (coefCol msm.sems (coefIdx msm yc (msm.predictors.getD i ""))) ∧
      ((plot_coefficients msm xc yc anchor).getD i default).highs
        = List.zipWith (fun m sem => m + 2 * sem)
            ((plot_coefficients msm xc yc anchor).getD i default).ys
            (coefCol msm.sems (coefIdx msm yc (msm.predictors.getD i "")))) := by
  constructor
  · intro s hs
    unfold plot_voltages at hout
    obtain ⟨gs, hres, hout2⟩ := except_map_ok hout
    subst hout2
    obtain ⟨g, hg, hsg⟩ := List.mem_map.mp hs
    subst hsg
    exact ⟨rfl, rfl⟩
  · intro i hi
    rw [plot_coefficients_getD msm xc yc anchor i hi]
    exact ⟨rfl, rfl⟩

/-- C7, witnessed on the concrete summaries `dsmW` and `msmW`. -/
theorem shaded_band_two_sems_witness :
    ((voltageSeries dsmW "Timestamp" "Cz" "Condition" "a").lows
      = List.zipWith (fun m sem => m - 2 * sem)
          (voltageSeries dsmW "Timestamp" "Cz" "Condition" "a").ys
          (semColumnV dsmW "Condition"
            (voltageSeries dsmW "Timestamp" "Cz" "Condition" "a").label "Cz")) ∧
    (((plot_coefficients msmW "Timestamp" "Cz" true).getD 1 default).lows
      = List.zipWith (fun m sem => m - 2 * sem)
          ((plot_coefficients msmW "Timestamp" "Cz" true).getD 1 default).ys
          (coefCol msmW.sems (coefIdx msmW "Cz" (msmW.predictors.getD 1 "")))) := by
  have h := shaded_band_two_sems dsmW "Timestamp" "Cz" "Condition" (some ["b", "a"])
    [voltageSeries dsmW "Timestamp" "Cz" "Condition" "b",
     voltageSeries dsmW "Timestamp" "Cz" "Condition" "a"]
    (by decide) msmW "Timestamp" "Cz" true
  exact ⟨(h.1 _ (by decide)).1, (h.2 1 (by decide)).1⟩

/-- C8: with `anchor` on, `plot_coefficients` draws the first (intercept)
trajectory unmodified under its own predictor name, and every subsequent slope
trajectory with the intercept trajectory added pointwise, relabeled
`"<intercept> + <predictor>"`. -/
theorem coefficient_anchoring (msm : ModelSummary) (x y : String) (i : ℕ)
    (hi : i < msm.predictors.length) :
    (i = 0 →
      ((plot_coefficients msm x y true).getD i default).label
        = msm.predictors.getD 0 "" ∧
      ((plot_coefficients msm x y true).getD i default).ys
        = coefCol msm.means (coefIdx msm y (msm.predictors.getD 0 ""))) ∧
    (0 < i →
      ((plot_coefficients msm x y true).getD i default).label
        = msm.predictors.getD 0 "" ++ " + " ++ msm.predictors.getD i "" ∧
      ((plot_coefficients msm x y true).getD i default).ys
        = List.zipWith (fun slope intercept => slope + intercept)
            (coefCol msm.means (coefIdx msm y (msm.predictors.getD i "")))
            (coefCol msm.means (coefIdx msm y (msm.predictors.getD 0 "")))) := by
  rw [plot_coefficients_getD msm x y true i hi]
  constructor
  · intro h0
    subst h0
    exact ⟨rfl, rfl⟩
  · intro hpos
    have hb : (true && decide (0 < i)) = true := by simp [hpos]
    rw [hb]
    exact ⟨by simp, by simp⟩

/-- C8, witnessed on the concrete coefficient summary `msmW`. -/
theorem coefficient_anchoring_witness :
    (((plot_coefficients msmW "Timestamp" "Cz" true).getD 0 default).label
      = msmW.predictors.getD 0 "" ∧
      ((plot_coefficients msmW "Timestamp" "Cz" true).getD 0 default).ys
        = coefCol msmW.means (coefIdx msmW "Cz" (msmW.predictors.getD 0 ""))) ∧
    (((plot_coefficients msmW "Timestamp" "Cz" true).getD 1 default).label
      = msmW.predictors.getD 0 "" ++ " + " ++ msmW.predictors.getD 1 "" ∧
      ((plot_coefficients msmW "Timestamp" "Cz" true).getD 1 default).ys
        = List.zipWith (fun slope intercept => slope + intercept)
            (coefCol msmW.means (coefIdx msmW "Cz" (msmW.predictors.getD 1 "")))
            (coefCol msmW.means (coefIdx msmW "Cz" (msmW.predictors.getD 0 "")))) :=
  ⟨(coefficient_anchoring msmW "Timestamp" "Cz" 0 (by decide)).1 rfl,
   (coefficient_anchoring msmW "Timestamp" "Cz" 1 (by decide)).2 (by decide)⟩

/-- Code-point comparison is total. -/
theorem charListLe_total : ∀ a b : List Char, charListLe a b = true ∨ charListLe b a = true
  | [], _ => Or.inl rfl
  | _ :: _, [] => Or.inr rfl
  | a :: as, b :: bs => by
      unfold charListLe
      by_cases h1 : a.toNat < b.toNat
      · left; rw [if_pos h1]
      · by_cases h2 : b.toNat < a.toNat
        · right; rw [if_pos h2]
        · rcases charListLe_total as bs with h | h
          · left; rw [if_neg h1, if_neg h2]; exact h
          · right; rw [if_neg h2, if_neg h1]; exact h

/-- Code-point comparison is transitive. -/
theorem charListLe_trans : ∀ a b c : List Char,
    charListLe a b = true → charListLe b c = true → charListLe a c = true
  | [], _, _ => fun _ _ => rfl
  | _ :: _, [], _ => fun h _ => by cases h
  | _ :: _, _ :: _, [] => fun _ h => by cases h
  | a :: as, b :: bs, c :: cs => fun h1 h2 => by
      unfold charListLe at h1 h2 ⊢
      have hab : a.toNat ≤ b.toNat := by
        by_cases h : a.toNat < b.toNat
        · omega
        · rw [if_neg h] at h1
          by_cases h' : b.toNat < a.toNat
          · rw [if_pos h'] at h1; cases h1
          · omega
      have hbc : b.toNat ≤ c.toNat := by
        by_cases h : b.toNat < c.toNat
        · omega
        · rw [if_neg h] at h2
          by_cases h' : c.toNat < b.toNat
          · rw [if_pos h'] at h2; cases h2
          · omega
      by_cases hac : a.toNat < c.toNat
      · rw [if_pos hac]
      · rw [if_neg hac]
        have hca : ¬ c.toNat < a.toNat := by omega
        rw [if_neg hca]
        have hab' : ¬ a.toNat < b.toNat := by omega
        have hba' : ¬ b.toNat < a.toNat := by omega
        have hbc' : ¬ b.toNat < c.toNat := by omega
        have hcb' : ¬ c.toNat < b.toNat := by omega
        rw [if_neg hab', if_neg hba'] at h1
        rw [if_neg hbc', if_neg hcb'] at h2
        exact charListLe_trans as bs cs h1 h2

/-- The string order is total. -/
theorem strLe_total (a b : String) : strLe a b = true ∨ strLe b a = true :=
  charListLe_total a.data b.data

/-- The string order is transitive. -/
theorem strLe_trans {a b c : String} (h1 : strLe a b = true) (h2 : strLe b c = true) :
    strLe a c = true :=
  charListLe_trans a.data b.data c.data h1 h2

/-- Membership through sorted insertion. -/
theorem mem_insertSorted {x a : String} :
    ∀ {l : List String}, x ∈ insertSorted a l ↔ x = a ∨ x ∈ l := by
  intro l
  induction l with
  | nil => simp [insertSorted]
  | cons y ys ih =>
      unfold insertSorted
      by_cases h : strLe a y
      · rw [if_pos h]; simp
      · rw [if_neg h]
        simp only [List.mem_cons, ih]
        tauto

/-- Sorted insertion keeps a list sorted in the string order. -/
theorem sorted_insertSorted (a : String) :
    ∀ {l : List String}, List.Sorted (fun u v => strLe u v = true) l →
      List.Sorted (fun u v => strLe u v = true) (insertSorted a l) := by
  intro l
  induction l with
  | nil => intro _; simp [insertSorted]
  | cons y ys ih =>
      intro hs
      rw [List.sorted_cons] at hs
      obtain ⟨hy, hys⟩ := hs
      unfold insertSorted
      by_cases h : strLe a y
      · rw [if_pos h, List.sorted_cons]
        refine ⟨?_, ?_⟩
        · intro b hb
          rcases List.mem_cons.mp hb with hb | hb
          · subst hb; exact h
          · exact strLe_trans h (hy b hb)
        · rw [List.sorted_cons]; exact ⟨hy, hys⟩
      · rw [if_neg h, List.sorted_cons]
        refine ⟨?_, ih hys⟩
        intro b hb
        rcases mem_insertSorted.mp hb with hb | hb
        · subst hb
          rcases strLe_total y b with h' | h'
          · exact h'
          · exact absurd h' h
        · exact hy b hb

/-- Sorted insertion of a fresh value keeps a list duplicate-free. -/
theorem nodup_insertSorted {a : String} :
    ∀ {l : List String}, a ∉ l → l.Nodup → (insertSorted a l).Nodup := by
  intro l
  induction l with
  | nil => intro _ _; simp [insertSorted]
  | cons y ys ih =>
      intro ha hl
      rw [List.nodup_cons] at hl
      unfold insertSorted
      by_cases h : strLe a y
      · rw [if_pos h, List.nodup_cons]
        exact ⟨ha, List.nodup_cons.mpr hl⟩
      · rw [if_neg h, List.nodup_cons]
        constructor
        · intro hmem
          rcases mem_insertSorted.mp hmem with h' | h'
          · exact ha (h' ▸ List.mem_cons_self y ys)
          · exact hl.1 h'
        · exact ih (fun hm => ha (List.mem_cons_of_mem _ hm)) hl.2

/-- Membership through the insertion-sort fold. -/
theorem mem_foldr_insertSorted {x : String} :
    ∀ {l : List String}, x ∈ l.foldr insertSorted [] ↔ x ∈ l := by
  intro l
  induction l with
  | nil => simp
  | cons a as ih => simp [mem_insertSorted, ih]

/-- The insertion-sort fold of a duplicate-free list is duplicate-free. -/
theorem nodup_foldr_insertSorted :
    ∀ {l : List String}, l.Nodup → (l.foldr insertSorted []).Nodup := by
  intro l
  induction l with
  | nil => intro _; simp
  | cons a as ih =>
      intro h
      rw [List.nodup_cons] at h
      exact nodup_insertSorted (fun hm => h.1 (mem_foldr_insertSorted.mp hm)) (ih h.2)

/-- `npUnique` is sorted in the string order. -/
theorem sorted_npUnique (xs : List String) :
    List.Sorted (fun u v => strLe u v = true) (npUnique xs) := by
  unfold npUnique
  generalize firstDedup xs = l
  induction l with
  | nil => simp
  | cons a as ih => exact sorted_insertSorted a ih

/-- `npUnique` has no duplicates. -/
theorem nodup_npUnique (xs : List String) : (npUnique xs).Nodup :=
  nodup_foldr_insertSorted (nodup_firstDedup xs)

/-- `npUnique` has exactly the values of its input. -/
theorem mem_npUnique (xs : List String) (v : String) : v ∈ npUnique xs ↔ v ∈ xs := by
  unfold npUnique
  rw [mem_foldr_insertSorted, mem_firstDedup]

/-- Two equal label lists are set-equal. -/
theorem listSetEq_of_eq {a b : List String} (h : a = b) : listSetEq a b := by
  subst h
  exact ⟨fun x hx => hx, fun x hx => hx⟩

/-- C9: `plot_voltages` draws the groups in the caller-supplied `group_order`
exactly when its names form the same set as the distinct groupby values present in
the summary; in every other case `group_order` is silently ignored and the groups
are drawn in sorted distinct-value (`numpy.unique`) order; and the nominally
optional default `group_order = None` always raises, being passed to `set`. -/
theorem group_order_resolution (dsm : DataSummary) (x y groupby : String) :
    plot_voltages dsm x y groupby none = .error .mk ∧
    List.Sorted (fun u v => strLe u v = true) (npUnique (groupColumn dsm groupby)) ∧
    (npUnique (groupColumn dsm groupby)).Nodup ∧
    (∀ v, v ∈ npUnique (groupColumn dsm groupby) ↔ v ∈ groupColumn dsm groupby) ∧
    ∀ go, ∃ out, plot_voltages dsm x y groupby (some go) = .ok out ∧
      (out.map Series.label = go ↔ listSetEq go (npUnique (groupColumn dsm groupby))) ∧
      (¬ listSetEq go (npUnique (groupColumn dsm groupby)) →
        out.map Series.label = npUnique (groupColumn dsm groupby)) := by
  refine ⟨rfl, sorted_npUnique _, nodup_npUnique _, mem_npUnique _, ?_⟩
  intro go
  have hlabel : ∀ gs : List String,
      (gs.map (voltageSeries dsm x y groupby)).map Series.label = gs := by
    intro gs
    rw [List.map_map]
    have hid : (Series.label ∘ voltageSeries dsm x y groupby) = id := by
      funext g
      rfl
    rw [hid, List.map_id]
  by_cases hset : listSetEq go (npUnique (groupColumn dsm groupby))
  · refine ⟨go.map (voltageSeries dsm x y groupby), ?_, ?_, ?_⟩
    · unfold plot_voltages resolveGroups
      dsimp only
      rw [if_pos hset]
      rfl
    · rw [hlabel go]
      exact ⟨fun _ => hset, fun _ => rfl⟩
    · intro hn
      exact absurd hset hn
  · refine ⟨(npUnique (groupColumn dsm groupby)).map (voltageSeries dsm x y groupby),
      ?_, ?_, ?_⟩
    · unfold plot_voltages resolveGroups
      dsimp only
      rw [if_neg hset]
      rfl
    · rw [hlabel]
      constructor
      · intro heq
        exact absurd (listSetEq_of_eq heq.symm) hset
      · intro hs
        exact absurd hs hset
    · intro _
      exact hlabel _

/-- C9, witnessed on the concrete summary `dsmW`: `None` raises, and a set-equal
custom order `["b", "a"]` is honored as the drawing order. -/
theorem group_order_resolution_witness :
    plot_voltages dsmW "Timestamp" "Cz" "Condition" none = .error .mk ∧
    ∃ out, plot_voltages dsmW "Timestamp" "Cz" "Condition" (some ["b", "a"]) = .ok out ∧
      out.map Series.label = ["b", "a"] := by
  have h := group_order_resolution dsmW "Timestamp" "Cz" "Condition"
  obtain ⟨out, h1, h2, h3⟩ := h.2.2.2.2 ["b", "a"]
  exact ⟨h.1, out, h1, h2.mpr (by decide)⟩

/-- A nonempty grid with no empty-string cell makes the shared grid traversal raise
`KeyError` (Python removes `''` from a set not containing it). -/
theorem gridRun_keyError {grid : List (List String)}
    {cell : String → Except PlotError Unit} (hne : grid ≠ [])
    (hmem : "" ∉ grid.flatten) : gridRun grid cell = .error .keyError := by
  cases grid with
  | nil => exact absurd rfl hne
  | cons g0 rest =>
      unfold gridRun
      dsimp only
      rw [if_neg hmem]

/-- A grid with an empty-string cell but fewer than two rows or two columns makes the
shared grid traversal raise on the two-dimensional `axes[0, 0]` indexing. -/
theorem gridRun_axesIndexError {grid : List (List String)}
    {cell : String → Except PlotError Unit} (hmem : "" ∈ grid.flatten)
    (hdim : grid.length < 2 ∨ (grid.headD []).length < 2) :
    gridRun grid cell = .error .axesIndexError := by
  cases grid with
  | nil => simp at hmem
  | cons g0 rest =>
      unfold gridRun
      dsimp only
      rw [if_pos hmem,
        if_pos (show (g0 :: rest).length < 2 ∨ g0.length < 2 from hdim)]

/-- An everywhere-successful traversal is the plain map. -/
theorem exMap_ok_of_pointwise {α β ε : Type} {f : α → Except ε β} {g : α → β} :
    ∀ {l : List α}, (∀ x ∈ l, f x = .ok (g x)) → exMap f l = .ok (l.map g) := by
  intro l
  induction l with
  | nil => intro _; rfl
  | cons a as ih =>
      intro h
      unfold exMap
      rw [h a (List.mem_cons_self a as), ih (fun x hx => h x (List.mem_cons_of_mem a hx))]
      rfl

/-- Every visited grid cell carries its own position and value. -/
theorem gridCells_shape {grid : List (List String)} {rce : ℕ × ℕ × String}
    (h : rce ∈ gridCells grid) :
    rce.1 < grid.length ∧ rce.2.1 < (grid.getD rce.1 []).length ∧
      rce.2.2 = (grid.getD rce.1 []).getD rce.2.1 "" := by
  unfold gridCells at h
  rw [List.mem_flatMap] at h
  obtain ⟨r, hr, hmap⟩ := h
  rw [List.mem_map] at hmap
  obtain ⟨c, hc, heq⟩ := hmap
  subst heq
  exact ⟨List.mem_range.mp hr, List.mem_range.mp hc, rfl⟩

/-- Every in-range position is visited by the grid traversal. -/
theorem mem_gridCells {grid : List (List String)} {r c : ℕ}
    (hr : r < grid.length) (hc : c < (grid.getD r []).length) :
    (r, c, (grid.getD r []).getD c "") ∈ gridCells grid := by
  unfold gridCells
  rw [List.mem_flatMap]
  exact ⟨r, List.mem_range.mpr hr, List.mem_map.mpr ⟨c, List.mem_range.mpr hc, rfl⟩⟩

/-- With an explicit `group_order`, `plot_voltages` always succeeds, drawing the
resolved order. -/
theorem plot_voltages_some_ok (dsm : DataSummary) (x y groupby : String)
    (go : List String) :
    plot_voltages dsm x y groupby (some go) =
      .ok ((if listSetEq go (npUnique (groupColumn dsm groupby)) then go
        else npUnique (groupColumn dsm groupby)).map (voltageSeries dsm x y groupby)) :=
  rfl

/-- On a grid holding an empty-string cell, with at least two rows and two columns
and no row wider than the first, the shared grid traversal with an
everywhere-successful per-electrode call succeeds and performs exactly one action
per cell in row-major order: hiding the empty-string cells and drawing the rest. -/
theorem gridRun_ok {grid : List (List String)} {cell : String → Except PlotError Unit}
    (htot : ∀ y, cell y = .ok ()) (hmem : "" ∈ grid.flatten)
    (h2r : 2 ≤ grid.length) (h2c : 2 ≤ (grid.headD []).length)
    (hw : ∀ row ∈ grid, row.length ≤ (grid.headD []).length) :
    gridRun grid cell = .ok ((gridCells grid).map (fun rce =>
      if rce.2.2 = "" then CellAct.hide rce.1 rce.2.1
      else CellAct.draw rce.1 rce.2.1 rce.2.2)) := by
  cases grid with
  | nil => simp at hmem
  | cons g0 rest =>
      unfold gridRun
      dsimp only
      rw [if_pos hmem, if_neg (by push_neg; exact ⟨h2r, h2c⟩)]
      apply exMap_ok_of_pointwise
      intro rce hm
      obtain ⟨hr, hc, _⟩ := gridCells_shape hm
      have hcw : rce.2.1 < g0.length := by
        have hrow : (g0 :: rest).getD rce.1 [] ∈ (g0 :: rest) := by
          rw [List.getD_eq_getElem _ _ hr]
          exact List.getElem_mem hr
        exact lt_of_lt_of_le hc (hw _ hrow)
      rw [if_neg (not_le.mpr hcw)]
      by_cases hz : rce.2.2 = ""
      · rw [if_pos hz, if_pos hz]
      · rw [if_neg hz, if_neg hz, htot rce.2.2]
        rfl

/-- C10: `plot_voltages_grid` and `plot_coefficients_grid` require the electrode
grid to hold at least one empty-string cell and at least two rows and two columns: a
nonempty grid with no empty-string cell raises a `KeyError` (removing the empty
string from a set not containing it), and a one-row or one-column grid raises on the
two-dimensional `axes[0, 0]` indexing of the squeezed axes array; under these
preconditions (the electrode grids used are rectangular: no row wider than the
first) every empty-string cell's subplot is made invisible and every named
electrode cell gets one drawn subplot. -/
theorem grid_requirements (dsm : DataSummary) (msm : ModelSummary) (x groupby : String)
    (go : List String) (anchor : Bool) (grid : List (List String)) :
    (grid ≠ [] → "" ∉ grid.flatten →
      plot_voltages_grid dsm x grid groupby (some go) = .error .keyError ∧
      plot_coefficients_grid msm x grid anchor = .error .keyError) ∧
    ("" ∈ grid.flatten → grid.length < 2 ∨ (grid.headD []).length < 2 →
      plot_voltages_grid dsm x grid groupby (some go) = .error .axesIndexError ∧
      plot_coefficients_grid msm x grid anchor = .error .axesIndexError) ∧
    ("" ∈ grid.flatten → 2 ≤ grid.length → 2 ≤ (grid.headD []).length →
      (∀ row ∈ grid, row.length ≤ (grid.headD []).length) →
      ∃ acts,
        plot_voltages_grid dsm x grid groupby (some go) = .ok acts ∧
        plot_coefficients_grid msm x grid anchor = .ok acts ∧
        (∀ r c, r < grid.length → c < (grid.getD r []).length →
          (grid.getD r []).getD c "" = "" → CellAct.hide r c ∈ acts) ∧
        (∀ r c e, r < grid.length → c < (grid.getD r []).length →
          (grid.getD r []).getD c "" = e → e ≠ "" → CellAct.draw r c e ∈ acts)) := by
  refine ⟨?_, ?_, ?_⟩
  · intro hne hmem
    exact ⟨gridRun_keyError hne hmem, gridRun_keyError hne hmem⟩
  · intro hmem hdim
    exact ⟨gridRun_axesIndexError hmem hdim, gridRun_axesIndexError hmem hdim⟩
  · intro hmem h2r h2c hw
    have htotV : ∀ y, (fun y =>
        match plot_voltages dsm x y groupby (some go) with
        | .error _ => Except.error PlotError.typeError
        | .ok _ => Except.ok ()) y = .ok () := by
      intro y
      simp only [plot_voltages_some_ok]
    refine ⟨(gridCells grid).map (fun rce =>
        if rce.2.2 = "" then CellAct.hide rce.1 rce.2.1
        else CellAct.draw rce.1 rce.2.1 rce.2.2), ?_, ?_, ?_, ?_⟩
    · unfold plot_voltages_grid
      exact gridRun_ok htotV hmem h2r h2c hw
    · unfold plot_coefficients_grid
      exact gridRun_ok (fun y => rfl) hmem h2r h2c hw
    · intro r c hr hc hz
      have hm := mem_gridCells hr hc
      rw [hz] at hm
      refine List.mem_map.mpr ⟨(r, c, ""), hm, ?_⟩
      rfl
    · intro r c e hr hc he hne2
      have hm := mem_gridCells hr hc
      rw [he] at hm
      refine List.mem_map.mpr ⟨(r, c, e), hm, ?_⟩
      dsimp only
      rw [if_neg hne2]

/-- C10, witnessed on the concrete summaries: `gridNoEmpty` (no empty cell) raises
`KeyError`, the one-row `gridOneRow` raises on the axes indexing, and the 2-by-2
`gridOK` (empty cells at the corners, `Pz` and `Cz` in between) hides both empty
cells and draws both electrodes in both grid plotters. -/
theorem grid_requirements_witness :
    plot_voltages_grid dsmW "Timestamp" gridNoEmpty "Condition" (some ["a", "b"]) =
      .error .keyError ∧
    plot_coefficients_grid msmW "Timestamp" gridOneRow true = .error .axesIndexError ∧
    ∃ acts,
      plot_voltages_grid dsmW "Timestamp" gridOK "Condition" (some ["a", "b"]) =
        .ok acts ∧
      plot_coefficients_grid msmW "Timestamp" gridOK true = .ok acts ∧
      CellAct.hide 0 0 ∈ acts ∧ CellAct.draw 0 1 "Pz" ∈ acts ∧
      CellAct.draw 1 0 "Cz" ∈ acts ∧ CellAct.hide 1 1 ∈ acts := by
  refine ⟨?_, ?_, ?_⟩
  · exact ((grid_requirements dsmW msmW "Timestamp" "Condition" ["a", "b"] true
      gridNoEmpty).1 (by decide) (by decide)).1
  · exact ((grid_requirements dsmW msmW "Timestamp" "Condition" ["a", "b"] true
      gridOneRow).2.1 (by decide) (by decide)).2
  · obtain ⟨acts, h1, h2, h3, h4⟩ :=
      (grid_requirements dsmW msmW "Timestamp" "Condition" ["a", "b"] true
        gridOK).2.2 (by decide) (by decide) (by decide) (by decide)
    exact ⟨acts, h1, h2, h3 0 0 (by decide) (by decide) (by decide),
      h4 0 1 "Pz" (by decide) (by decide) (by decide) (by decide),
      h4 1 0 "Cz" (by decide) (by decide) (by decide) (by decide),
      h3 1 1 (by decide) (by decide) (by decide)⟩
